import Mathlib

/-!
Verification development for the issues-to-go synchronization engine
(package gh, file gh.go, and the cobra root command in root.go).

The engine is embedded shallowly:

* the output tree is an association list from paths (component lists) to
  entries (regular file, symbolic link, or directory);
* the remote GraphQL API is a pure value: the list of issue pages the
  server would return for the successive cursors, and, per issue, the
  comment pages returned for the successive comment cursors (the first
  comment page travels inside the issue node, as in the `comments(first:,
  after:)` field of the query);
* `FetchIssues` and its helpers (`extractComments`, `deleteIssueFile`,
  `writeMilestone`, `createSymlink`, `createDirs`, `createMilestoneDir`,
  `readExistingIssues`) become pure functions threading the tree and the
  session counters, returning the final state together with an optional Go
  error value (the state is kept on error, as the disk is on a Go return).

Timestamps are carried as already-formatted text: the code only ever
interpolates `t.In(tz)` into `fmt.Sprintf`, so the formatted string is the
one observable the documents depend on.
-/

/- ## Definitions: the shallow embedding of the engine -/

/-- A filesystem path, as its list of components (the way filepath.Join
assembles them). The output root occupies a prefix of every path the engine
touches. -/
abbrev FPath := List String

/-- One entry of the output tree: a regular file with its bytes, a symbolic
link with its target, or a directory. -/
inductive Entry where
  | file (content : List Char)
  | symlink (target : Bool × List String)
  | dir
deriving DecidableEq

/-- The output tree: an association list from paths to entries, mirroring
the directory tree the engine mutates. Real trees have unique paths; the
theorems carry a no-duplicate-keys hypothesis. -/
abbrev FS := List (FPath × Entry)

/-- Path lookup in the tree (first matching key). -/
def lookup : FS → FPath → Option Entry
  | [], _ => none
  | kv :: rest, p => if kv.1 = p then some kv.2 else lookup rest p

/-- os.Remove on a path key: drops the entry. (Failure of os.Remove on a
missing path is handled by the caller `deleteAllFiles`; removal of a
non-empty directory, which Go would refuse, is excluded by the
`dirsClean` hypothesis of the run-level theorems.) -/
def removeP : FS → FPath → FS
  | [], _ => []
  | kv :: rest, p => if kv.1 = p then removeP rest p else kv :: removeP rest p

/-- ioutil.WriteFile: create or truncate the file at the path. -/
def writeFile (fs : FS) (p : FPath) (e : Entry) : FS :=
  removeP fs p ++ [(p, e)]

/-- One step of os.MkdirAll: create the directory if nothing is there yet. -/
def ensureDir (fs : FS) (p : FPath) : FS :=
  match lookup fs p with
  | some _ => fs
  | none => fs ++ [(p, Entry.dir)]

/-- os.MkdirAll over a list of directories. -/
def ensureDirs (fs : FS) (ps : List FPath) : FS :=
  ps.foldl ensureDir fs

/-- os.Symlink with the engine's tolerance: if anything already exists at
the new path the error satisfies os.IsExist and is swallowed
(gh.go, createSymlink). -/
def symlinkTo (fs : FS) (p : FPath) (t : Bool × List String) : FS :=
  match lookup fs p with
  | some _ => fs
  | none => fs ++ [(p, Entry.symlink t)]

/-- The tree has no duplicate paths. -/
def NodupKeys (fs : FS) : Prop :=
  (fs.map Prod.fst).Nodup

/-- Whether a path lies at or below a root (component-wise prefix). -/
def underDir : List String → List String → Bool
  | [], _ => true
  | _ :: _, [] => false
  | a :: as, b :: bs => a == b && underDir as bs

/-- Base name of a path (os.FileInfo.Name() as seen by filepath.Walk). -/
def lastName (p : FPath) : Option String :=
  p.getLast?

/-- The filename an issue number reconciles under:
strconv.Itoa(number) + ".md" (gh.go, FetchIssues / deleteIssueFile). -/
def fileName (n : Nat) : String :=
  Nat.repr n ++ ".md"

/-- ASCII lower-casing of one character (strings.ToLower restricted to the
ASCII state words "OPEN"/"CLOSED" the GitHub API produces). -/
def lowerChar (c : Char) : Char :=
  if 'A' ≤ c ∧ c ≤ 'Z' then Char.ofNat (c.toNat + 32) else c

/-- strings.ToLower on a state word. -/
def asciiLower (s : String) : String :=
  ⟨s.data.map lowerChar⟩

/-- regexp.MustCompile(`\/`).ReplaceAllString(title, "_"): every forward
slash (the path separator) becomes an underscore (gh.go, writeMilestone). -/
def sanitize (t : String) : String :=
  ⟨t.data.map (fun c => if c = '/' then '_' else c)⟩

/-- The replacement text the renderer substitutes for a matched
cross-reference: the Go template "[#$2]($2.md)" with $2 the digits. -/
def refLink (ds : List Char) : List Char :=
  '[' :: '#' :: ds ++ ']' :: '(' :: ds ++ ".md".data ++ [')']

/-- The scan of regexp.MustCompile(`(#(\d+))`).ReplaceAllString(body,
"[#$2]($2.md)") (gh.go, extractComments): left to right, a hash mark
followed by a maximal non-empty run of digits is replaced by `refLink` of
the digits, everything else is copied. The fuel argument bounds the scan by
the length of the text so the recursion is structural. -/
def rewriteGo : Nat → List Char → List Char
  | 0, l => l
  | _ + 1, [] => []
  | fuel + 1, c :: rest =>
    if c = '#' ∧ rest.takeWhile Char.isDigit ≠ [] then
      refLink (rest.takeWhile Char.isDigit) ++ rewriteGo fuel (rest.dropWhile Char.isDigit)
    else
      c :: rewriteGo fuel rest

/-- Cross-reference rewriting of a body, as the renderer applies it to the
issue body and to every comment body. -/
def rewriteRefs (l : List Char) : List Char :=
  rewriteGo l.length l

/-- The first character, if any, is not a digit: the condition under which
a digit run ending at that point is maximal for the regex scan. -/
def headNotDigit : List Char → Bool
  | [] => true
  | c :: _ => !c.isDigit

/- ### The remote data model and the documents -/
/-- One page of a paginated GraphQL connection: the records plus the
pageInfo has-next flag (the end cursor is the position of the next page in
the response list, so it needs no separate field). -/
structure Page (α : Type) where
  items : List α
  hasNext : Bool
deriving DecidableEq

/-- A comment as the query returns it. The creation timestamp is carried as
the text that fmt's %v verb produces for it in the selected time zone. -/
structure CommentData where
  author : List Char
  createdAt : List Char
  body : List Char
deriving DecidableEq

/-- An issue node as the query returns it, together with the remote's
responses to the successive comment-page queries for this issue
(`comments0` is the page embedded in the issue node, `commentRest` the
pages returned for the successive comment cursors). -/
structure IssueData where
  number : Nat
  title : List Char
  author : List Char
  createdAt : List Char
  body : List Char
  state : String
  closed : Bool
  closedAt : List Char
  milestone : String
  comments0 : Page CommentData
  commentRest : List (Page CommentData)
deriving DecidableEq

/-- The engine options that influence the output tree. `rootAbs` records
whether the configured output path is absolute (filepath.IsAbs). -/
structure OptsM where
  root : List String
  rootAbs : Bool
  allIssues : Bool
  milestones : Bool
deriving DecidableEq

/-- Go error values the engine can return. Distinct constructors are
distinct error values under Go's interface comparison; `wrap` is
errors.Wrap. `errNotExist` is the bare os.ErrNotExist sentinel;
`pathWalkError` is the *fs.PathError that filepath.Walk actually returns
when the root is missing (it wraps ENOENT but is a different value than
the sentinel). -/
inductive GoErr where
  | noIssues
  | errNotExist
  | pathWalkError (root : List String)
  | removeError (p : FPath)
  | commentQueryError
  | issueQueryError
  | wrap (msg : String) (e : GoErr)
deriving DecidableEq

/-- The mutable state of one FetchIssues run: the output tree, the
existing-files index, the downloadedIssues list, the count, and the number
of issue-page and comment-page queries issued. -/
structure St where
  fs : FS
  idx : String → List FPath
  written : List FPath
  count : Nat
  iq : Nat
  cq : Nat

/-- The issue header: fmt.Sprintf("%s\n---\n\nCreated by %s on %v:\n\n%s\n\n---\n",
title, author, createdAt, rewritten body). -/
def headerOf (i : IssueData) : List Char :=
  i.title ++ "\n---\n\nCreated by ".data ++ i.author ++ " on ".data ++ i.createdAt
    ++ ":\n\n".data ++ rewriteRefs i.body ++ "\n\n---\n".data

/-- One comment block: fmt.Sprintf("\n%s commented on %v:\n\n%s\n\n---\n",
author, createdAt, rewritten body). -/
def commentBlock (c : CommentData) : List Char :=
  '\n' :: (c.author ++ " commented on ".data ++ c.createdAt ++ ":\n\n".data
    ++ rewriteRefs c.body ++ "\n\n---\n".data)

/-- The closing footer: fmt.Sprintf("Closed on %v", closedAt). -/
def footerOf (i : IssueData) : List Char :=
  "Closed on ".data ++ i.closedAt

/-- The full document for an issue, given the comment sequence: header,
then one block per comment, then the footer when the issue is closed
(gh.go, extractComments plus the Closed branch of FetchIssues). -/
def renderDoc (i : IssueData) (cs : List CommentData) : List Char :=
  headerOf i ++ (cs.map commentBlock).flatten ++ (if i.closed then footerOf i else [])

/-- The comment loop of extractComments: emit the current page, stop when
it reports no next page, otherwise query the next page (one comment-page
query per iteration past the first). Returns the assembled comment list and
the number of comment-page queries issued, or the transport error when the
remote has no response for the cursor. -/
def drain : Page CommentData → List (Page CommentData) → Except GoErr (List CommentData × Nat)
  | pg, [] =>
    if pg.hasNext = false then Except.ok (pg.items, 0)
    else Except.error GoErr.commentQueryError
  | pg, q :: qs =>
    if pg.hasNext = false then Except.ok (pg.items, 0)
    else
      match drain q qs with
      | Except.ok (cs, k) => Except.ok (pg.items ++ cs, k + 1)
      | Except.error e => Except.error e

/-- The canonical target path: filepath.Join(OutputPath,
strings.ToLower(state), strconv.Itoa(number) + ".md"). -/
def canonicalPath (opts : OptsM) (i : IssueData) : FPath :=
  opts.root ++ [asciiLower i.state, fileName i.number]

/-- The milestone cross-reference location: filepath.Join(OutputPath,
"milestones", sanitized title, strings.ToLower(state), number + ".md"). -/
def linkPathOf (opts : OptsM) (i : IssueData) : FPath :=
  opts.root ++ ["milestones", sanitize i.milestone, asciiLower i.state, fileName i.number]

/-- The symlink target createSymlink computes: the canonical path itself
when it is absolute, otherwise filepath.Join("..", "..", "..", "..",
outputFile). The Boolean is filepath.IsAbs of the target. -/
def symlinkTarget (rootAbs : Bool) (outputFile : FPath) : Bool × List String :=
  if rootAbs then (true, outputFile)
  else (false, [".."] ++ [".."] ++ [".."] ++ [".."] ++ outputFile)

/-- The directories createMilestoneDir ensures (os.MkdirAll of
milestones/<ms>/open, plus closed when all issues are fetched; MkdirAll
also creates the missing intermediate directories). -/
def mdirList (opts : OptsM) (ms : String) : List FPath :=
  [opts.root ++ ["milestones"], opts.root ++ ["milestones", ms],
    opts.root ++ ["milestones", ms, "open"]]
    ++ (if opts.allIssues then [opts.root ++ ["milestones", ms, "closed"]] else [])

/-- writeMilestone: when milestone grouping is on and the title is
non-empty, sanitize the title, ensure the milestone directories, and create
the cross-reference symlink (tolerating an existing one). -/
def writeMilestone (opts : OptsM) (i : IssueData) (out : FPath) (fs : FS) : FS :=
  if opts.milestones && (i.milestone != "") then
    symlinkTo (ensureDirs fs (mdirList opts (sanitize i.milestone)))
      (linkPathOf opts i) (symlinkTarget opts.rootAbs out)
  else fs

/-- deleteIssueFile's loop over the indexed paths: os.Remove each; a
missing path makes os.Remove fail and the failure is returned wrapped,
with the removals made so far kept on disk. -/
def deleteAllFiles : FS → List FPath → FS × Option GoErr
  | fs, [] => (fs, none)
  | fs, p :: ps =>
    match lookup fs p with
    | none => (fs, some (GoErr.wrap "unable to delete existing issue" (GoErr.removeError p)))
    | some _ => deleteAllFiles (removeP fs p) ps

/-- The per-issue body of the FetchIssues page loop: extract (drain) the
comments, render, delete the indexed stale files for the issue's filename,
write the canonical file, create the milestone link, then record the path
and bump the count. Failures return immediately with the tree as mutated so
far. -/
def stepIssue (opts : OptsM) (st : St) (i : IssueData) : St × Option GoErr :=
  match drain i.comments0 i.commentRest with
  | Except.error e => (st, some (GoErr.wrap "unable to extract comments" e))
  | Except.ok (cs, k) =>
    match deleteAllFiles st.fs (st.idx (fileName i.number)) with
    | (fs1, some e) => ({ st with fs := fs1, cq := st.cq + k }, some e)
    | (fs1, none) =>
      let out := canonicalPath opts i
      let fs2 := writeFile fs1 out (Entry.file (renderDoc i cs))
      let fs3 := writeMilestone opts i out fs2
      ({ st with fs := fs3, written := st.written ++ [out],
                 count := st.count + 1, cq := st.cq + k }, none)

/-- The inner loop over the issues of one page. -/
def stepIssues (opts : OptsM) : St → List IssueData → St × Option GoErr
  | st, [] => (st, none)
  | st, i :: is =>
    match stepIssue opts st i with
    | (st', none) => stepIssues opts st' is
    | (st', some e) => (st', some e)

/-- The FetchIssues page loop: query a page (counted), return ErrNoIssues
when it has zero edges, process its issues, stop when the page reports no
next page, otherwise advance the cursor and repeat. Querying past the
remote's responses is a transport error. -/
def fetchPages (opts : OptsM) : St → List (Page IssueData) → St × Option GoErr
  | st, [] => ({ st with iq := st.iq + 1 }, some GoErr.issueQueryError)
  | st, pg :: rest =>
    let st1 := { st with iq := st.iq + 1 }
    if pg.items = [] then (st1, some GoErr.noIssues)
    else
      match stepIssues opts st1 pg.items with
      | (st2, some e) => (st2, some e)
      | (st2, none) =>
        if pg.hasNext then fetchPages opts st2 rest else (st2, none)

/-- The index readExistingIssues builds with filepath.Walk: every entry at
or below the root (directories included, as Walk visits them), keyed by
its base filename. -/
def buildIndex (fs : FS) (root : List String) : String → List FPath :=
  fun f => (fs.filter (fun kv => underDir root kv.1 && (lastName kv.1 == some f))).map Prod.fst

/-- readExistingIssues: filepath.Walk over the root. On a missing root,
Walk's walkFn receives the Lstat error and returns it, so the function
returns the empty map together with a *fs.PathError. -/
def readExistingIssues (fs : FS) (root : List String) :
    (String → List FPath) × Option GoErr :=
  if lookup fs root = none then (fun _ => [], some (GoErr.pathWalkError root))
  else (buildIndex fs root, none)

/-- The state at the start of the page loop. -/
def initSt (fs : FS) (idx : String → List FPath) : St :=
  { fs := fs, idx := idx, written := [], count := 0, iq := 0, cq := 0 }

/-- FetchIssues: build the index; the code tolerates exactly the bare
os.ErrNotExist sentinel (err != nil && err != os.ErrNotExist) and wraps any
other error fatally; then run the page loop. -/
def fetchIssues (opts : OptsM) (fs : FS) (pages : List (Page IssueData)) :
    St × Option GoErr :=
  match readExistingIssues fs opts.root with
  | (idx, some e) =>
    if e = GoErr.errNotExist then fetchPages opts (initSt fs idx) pages
    else (initSt fs idx, some (GoErr.wrap "unable to read existing issues" e))
  | (idx, none) => fetchPages opts (initSt fs idx) pages

/-- createDirs, run by New before FetchIssues: MkdirAll of the root and its
open directory, plus closed when all issues are fetched. (Ancestors of the
root itself are never read back by the engine and are not modeled.) -/
def createDirs (opts : OptsM) (fs : FS) : FS :=
  ensureDirs fs ([opts.root, opts.root ++ ["open"]]
    ++ (if opts.allIssues then [opts.root ++ ["closed"]] else []))

/-- One engine run as the command executes it: New (createDirs) followed by
FetchIssues. -/
def run (opts : OptsM) (fs : FS) (pages : List (Page IssueData)) : St × Option GoErr :=
  fetchIssues opts (createDirs opts fs) pages

/-- The written-paths list as reported to the user: FetchIssues prints
downloadedIssues only after the loop completes without error. -/
def reportedPaths : St × Option GoErr → List FPath
  | (st, none) => st.written
  | (_, some _) => []

/-- The caller's fatal test (root.go: err != nil && err != gh.ErrNoIssues
log.Fatals): every error except the distinguished ErrNoIssues is fatal. -/
def callerFatal (e : GoErr) : Prop :=
  e ≠ GoErr.noIssues

/- ### Shapes of well-formed remote responses -/
/-- A response sequence the loops consume in full: every page but the last
reports a next page, the last does not. -/
def goodPagesB {α : Type} : List (Page α) → Bool
  | [] => false
  | [p] => p.hasNext == false
  | p :: q :: rest => p.hasNext && goodPagesB (q :: rest)

/-- All comment pages of an issue, first the one embedded in the node. -/
def commentPages (i : IssueData) : List (Page CommentData) :=
  i.comments0 :: i.commentRest

/-- The complete comment set of an issue across all its pages. -/
def fullComments (i : IssueData) : List CommentData :=
  ((commentPages i).map Page.items).flatten

/-- The document of an issue rendered from its complete comment set. -/
def docFull (i : IssueData) : List Char :=
  renderDoc i (fullComments i)

/-- All issues across a list of pages, in traversal order. -/
def issuesOf (pages : List (Page IssueData)) : List IssueData :=
  (pages.map Page.items).flatten

/-- The states the issue filter can return for the configured state set:
closed issues only arrive when AllIssues is on. -/
def statesMatch (opts : OptsM) (issues : List IssueData) : Prop :=
  ∀ i ∈ issues, i.state = "OPEN" ∨ (i.state = "CLOSED" ∧ opts.allIssues = true)

/-- Issue batches free of name collisions: distinct numbers give distinct
filenames, no filename collides with the fixed directory names or a
sanitized milestone title, and each issue's comment-page sequence is
consumable in full. -/
def cleanIssues (issues : List IssueData) : Prop :=
  (issues.map (fun i => fileName i.number)).Nodup ∧
  (∀ i ∈ issues, fileName i.number ∉ (["open", "closed", "milestones"] : List String)) ∧
  (∀ i ∈ issues, ∀ j ∈ issues, sanitize j.milestone ≠ fileName i.number) ∧
  (∀ i ∈ issues, goodPagesB (commentPages i) = true)

/-- No directory under the root is named like an issue file: os.Remove
refuses non-empty directories, so runs whose index points deletion at a
directory are outside the success statements. -/
def dirsClean (fs : FS) (root : List String) (issues : List IssueData) : Prop :=
  ∀ kv ∈ fs, kv.2 = Entry.dir → underDir root kv.1 = true →
    ∀ i ∈ issues, lastName kv.1 ≠ some (fileName i.number)

/-- The combined well-formedness of one run's input. -/
def WFRun (opts : OptsM) (fs : FS) (pages : List (Page IssueData)) : Prop :=
  goodPagesB pages = true ∧
  (∀ pg ∈ pages, pg.items ≠ []) ∧
  cleanIssues (issuesOf pages) ∧
  statesMatch opts (issuesOf pages) ∧
  NodupKeys (createDirs opts fs) ∧
  dirsClean (createDirs opts fs) opts.root (issuesOf pages) ∧
  (∀ i ∈ issuesOf pages, lastName opts.root ≠ some (fileName i.number))

/- ### Milestone handling, factored for reasoning -/
/-- The condition of writeMilestone: grouping enabled and non-empty title. -/
def msOn (opts : OptsM) (i : IssueData) : Bool :=
  opts.milestones && (i.milestone != "")

/-- The milestone directories the step creates, or none. -/
def mdirsOf (opts : OptsM) (i : IssueData) : List FPath :=
  if msOn opts i = true then mdirList opts (sanitize i.milestone) else []

/- ### Per-issue preconditions and postconditions -/
/-- The per-issue side conditions the run-level hypotheses provide. -/
def issueClean (i : IssueData) : Prop :=
  goodPagesB (commentPages i) = true ∧
  (asciiLower i.state = "open" ∨ asciiLower i.state = "closed") ∧
  sanitize i.milestone ≠ fileName i.number ∧
  fileName i.number ≠ "open" ∧ fileName i.number ≠ "closed" ∧
  fileName i.number ≠ "milestones"

/-- The index is the one readExistingIssues built over the tree the step
sees, restricted to the names the step queries. -/
def idxMatches (st : St) (root : List String) (f : String) : Prop :=
  (∀ p, p ∈ st.idx f ↔
    (underDir root p = true ∧ lastName p = some f ∧ lookup st.fs p ≠ none)) ∧
  (st.idx f).Nodup

/-- What one successful reconciliation step guarantees. -/
structure StepFacts (opts : OptsM) (st : St) (i : IssueData) (out : St) : Prop where
  fsCanon : lookup out.fs (canonicalPath opts i) = some (Entry.file (docFull i))
  fsLink : msOn opts i = true →
    lookup out.fs (linkPathOf opts i)
      = some (Entry.symlink (symlinkTarget opts.rootAbs (canonicalPath opts i)))
  fsStale : ∀ p, underDir opts.root p = true → lastName p = some (fileName i.number) →
    p ≠ canonicalPath opts i → (msOn opts i = true → p ≠ linkPathOf opts i) →
    lookup out.fs p = none
  fsFrame : ∀ p, lastName p ≠ some (fileName i.number) → p ∉ mdirsOf opts i →
    lookup out.fs p = lookup st.fs p
  fsMdirs : ∀ p ∈ mdirsOf opts i, lookup out.fs p ≠ none ∧
    ∀ e, lookup st.fs p = some e → lookup out.fs p = some e
  fsOutside : ∀ p, underDir opts.root p = false → lookup out.fs p = lookup st.fs p
  fsNodup : NodupKeys out.fs
  hwritten : out.written = st.written ++ [canonicalPath opts i]
  hcount : out.count = st.count + 1
  hiq : out.iq = st.iq
  hcq : out.cq = st.cq + i.commentRest.length
  hidx : out.idx = st.idx

/-- What one successful pass over a batch of issues guarantees. -/
structure BatchFacts (opts : OptsM) (st : St) (issues : List IssueData) (out : St) : Prop where
  fsCanon : ∀ i ∈ issues, lookup out.fs (canonicalPath opts i) = some (Entry.file (docFull i))
  fsLink : ∀ i ∈ issues, msOn opts i = true →
    lookup out.fs (linkPathOf opts i)
      = some (Entry.symlink (symlinkTarget opts.rootAbs (canonicalPath opts i)))
  fsStale : ∀ i ∈ issues, ∀ p, underDir opts.root p = true →
    lastName p = some (fileName i.number) →
    p ≠ canonicalPath opts i → (msOn opts i = true → p ≠ linkPathOf opts i) →
    lookup out.fs p = none
  fsFrame : ∀ p, (∀ i ∈ issues, lastName p ≠ some (fileName i.number)) →
    (∀ i ∈ issues, p ∉ mdirsOf opts i) → lookup out.fs p = lookup st.fs p
  fsMdirs : ∀ i ∈ issues, ∀ p ∈ mdirsOf opts i, lookup out.fs p ≠ none ∧
    ∀ e, lookup st.fs p = some e → lookup out.fs p = some e
  fsOutside : ∀ p, underDir opts.root p = false → lookup out.fs p = lookup st.fs p
  fsNodup : NodupKeys out.fs
  hwritten : out.written = st.written ++ issues.map (canonicalPath opts)
  hcount : out.count = st.count + issues.length
  hiq : out.iq = st.iq
  hcq : out.cq = st.cq + (issues.map (fun i => i.commentRest.length)).sum
  hidx : out.idx = st.idx

/- ### The run-level characterization -/
/-- The facts one successful run establishes about the output tree, stated
against the tree as it stood after createDirs. -/
structure TreeFacts (opts : OptsM) (fsIn : FS) (issues : List IssueData) (fsOut : FS) : Prop where
  tCanon : ∀ i ∈ issues, lookup fsOut (canonicalPath opts i) = some (Entry.file (docFull i))
  tLink : ∀ i ∈ issues, msOn opts i = true →
    lookup fsOut (linkPathOf opts i)
      = some (Entry.symlink (symlinkTarget opts.rootAbs (canonicalPath opts i)))
  tStale : ∀ i ∈ issues, ∀ p, underDir opts.root p = true →
    lastName p = some (fileName i.number) → p ≠ canonicalPath opts i →
    (msOn opts i = true → p ≠ linkPathOf opts i) → lookup fsOut p = none
  tFrame : ∀ p, (∀ i ∈ issues, lastName p ≠ some (fileName i.number)) →
    (∀ i ∈ issues, p ∉ mdirsOf opts i) → lookup fsOut p = lookup fsIn p
  tMdirs : ∀ i ∈ issues, ∀ p ∈ mdirsOf opts i, lookup fsOut p ≠ none ∧
    ∀ e, lookup fsIn p = some e → lookup fsOut p = some e
  tOutside : ∀ p, underDir opts.root p = false → lookup fsOut p = lookup fsIn p
  tNodup : NodupKeys fsOut

instance (fs : FS) : Decidable (NodupKeys fs) := by
  unfold NodupKeys; infer_instance

instance (opts : OptsM) (issues : List IssueData) : Decidable (statesMatch opts issues) := by
  unfold statesMatch; infer_instance

instance (issues : List IssueData) : Decidable (cleanIssues issues) := by
  unfold cleanIssues; infer_instance

instance (fs : FS) (root : List String) (issues : List IssueData) :
    Decidable (dirsClean fs root issues) := by
  unfold dirsClean; infer_instance

instance (opts : OptsM) (fs : FS) (pages : List (Page IssueData)) :
    Decidable (WFRun opts fs pages) := by
  unfold WFRun; infer_instance

instance (i : IssueData) : Decidable (issueClean i) := by
  unfold issueClean; infer_instance

/-- A fetched issue for the witnesses: open, milestoned "m/x", body with a
cross reference, one comment plus a second comment page. -/
def wIssue : IssueData :=
  { number := 1, title := "T".data, author := "a".data, createdAt := "c1".data,
    body := "see #2".data, state := "OPEN", closed := false, closedAt := [],
    milestone := "m/x",
    comments0 := { items := [{ author := "u".data, createdAt := "c2".data,
                               body := "b".data }], hasNext := true },
    commentRest := [{ items := [], hasNext := false }] }

/-- Witness options: relative root out, all issues, milestones on. -/
def wOpts : OptsM :=
  { root := ["out"], rootAbs := false, allIssues := true, milestones := true }

/-- A prior tree holding a stale copy of issue 1 under the closed state. -/
def wFs0 : FS := [(["out", "closed", "1.md"], Entry.file [])]

/-- One issue page for the witnesses. -/
def wPages : List (Page IssueData) := [{ items := [wIssue], hasNext := false }]

/-- Issues for the C4 witness: five issues over three pages, one of them
with a second comment page. -/
def wIssueN (n : Nat) : IssueData :=
  { number := n, title := [], author := [], createdAt := [], body := [],
    state := "OPEN", closed := false, closedAt := [], milestone := "",
    comments0 := { items := [], hasNext := false }, commentRest := [] }

def wIssue4 : IssueData :=
  { wIssueN 4 with
    comments0 := { items := [], hasNext := true },
    commentRest := [{ items := [], hasNext := false }] }

def wOpts4 : OptsM :=
  { root := ["o4"], rootAbs := false, allIssues := false, milestones := false }

def wPages4 : List (Page IssueData) :=
  [{ items := [wIssueN 1, wIssueN 2], hasNext := true },
   { items := [wIssueN 3, wIssue4], hasNext := true },
   { items := [wIssueN 5], hasNext := false }]

/- ### The Since option (root.go and gh.Since) -/
/-- The Options fields the Since option writes: the filter instant, as
seconds since the Unix epoch. (The other fields of gh.Options do not
interact with Since and are omitted.) -/
structure SinceOptions where
  since : Int
deriving DecidableEq

/-- time.Unix(0, 0): the Unix epoch, 1970-01-01T00:00:00Z. -/
def sinceEpoch : Int := 0

/-- gh.Since: parse the string as RFC-3339 (time.Parse is the external
library parser, supplied as a parameter returning none exactly on the
strings it rejects); on failure substitute time.Unix(0, 0), log, and return
nil — the option function never returns an error. -/
def sinceApply (parse : String → Option Int) (s : String) (o : SinceOptions) :
    Except String SinceOptions :=
  match parse s with
  | some t => Except.ok { o with since := t }
  | none => Except.ok { o with since := sinceEpoch }

/-- The remote filter contract (spec section 6): an issue passes the
"modified since" filter when its modification instant, a non-negative Unix
timestamp, is at or after the filter instant. -/
def sinceMatches (since : Int) (updatedAt : Nat) : Bool :=
  decide (since ≤ (updatedAt : Int))

/- ## Theorems -/

/- ### Fuel elimination and unfolding for the rewriter -/
theorem length_dropWhile_le (q : Char → Bool) (l : List Char) :
    (l.dropWhile q).length ≤ l.length :=
  (List.dropWhile_sublist q).length_le

theorem rewriteGo_fuel : ∀ f₁ f₂ l, l.length ≤ f₁ → l.length ≤ f₂ →
    rewriteGo f₁ l = rewriteGo f₂ l := by
  intro f₁
  induction f₁ with
  | zero =>
    intro f₂ l hl _
    have : l = [] := List.length_eq_zero.mp (Nat.le_zero.mp hl)
    subst this
    cases f₂ <;> rfl
  | succ m ih =>
    intro f₂ l hl hl₂
    cases l with
    | nil => cases f₂ <;> rfl
    | cons c rest =>
      cases f₂ with
      | zero => exact absurd hl₂ (by simp)
      | succ m₂ =>
        have hr : rest.length ≤ m := by simp only [List.length_cons] at hl; omega
        have hr₂ : rest.length ≤ m₂ := by simp only [List.length_cons] at hl₂; omega
        show rewriteGo (m + 1) (c :: rest) = rewriteGo (m₂ + 1) (c :: rest)
        simp only [rewriteGo]
        by_cases h : c = '#' ∧ rest.takeWhile Char.isDigit ≠ []
        · rw [if_pos h, if_pos h]
          have hdw : (rest.dropWhile Char.isDigit).length ≤ rest.length :=
            length_dropWhile_le Char.isDigit rest
          rw [ih m₂ (rest.dropWhile Char.isDigit) (le_trans hdw hr) (le_trans hdw hr₂)]
        · rw [if_neg h, if_neg h]
          rw [ih m₂ rest hr hr₂]

theorem rewriteRefs_nil : rewriteRefs [] = [] := rfl

theorem rewriteRefs_cons (c : Char) (rest : List Char) :
    rewriteRefs (c :: rest) =
      if c = '#' ∧ rest.takeWhile Char.isDigit ≠ [] then
        refLink (rest.takeWhile Char.isDigit) ++ rewriteRefs (rest.dropWhile Char.isDigit)
      else
        c :: rewriteRefs rest := by
  show rewriteGo (rest.length + 1) (c :: rest) = _
  simp only [rewriteGo]
  by_cases h : c = '#' ∧ rest.takeWhile Char.isDigit ≠ []
  · rw [if_pos h, if_pos h]
    have hdw : (rest.dropWhile Char.isDigit).length ≤ rest.length :=
      length_dropWhile_le Char.isDigit rest
    rw [rewriteGo_fuel rest.length (rest.dropWhile Char.isDigit).length
      (rest.dropWhile Char.isDigit) hdw le_rfl]
    rfl
  · rw [if_neg h, if_neg h]
    rw [rewriteGo_fuel rest.length rest.length rest le_rfl le_rfl]
    rfl

theorem takeWhile_append_of_stop (q : Char → Bool) :
    ∀ (xs : List Char) (y : Char) (ys : List Char), q y = false →
      (xs ++ y :: ys).takeWhile q = xs.takeWhile q := by
  intro xs y ys hy
  induction xs with
  | nil => simp [hy]
  | cons a as ih =>
    rw [List.cons_append]
    cases hqa : q a
    · rw [List.takeWhile_cons_of_neg (by simp [hqa]),
        List.takeWhile_cons_of_neg (by simp [hqa])]
    · rw [List.takeWhile_cons_of_pos hqa, List.takeWhile_cons_of_pos hqa, ih]

theorem dropWhile_append_of_stop (q : Char → Bool) :
    ∀ (xs : List Char) (y : Char) (ys : List Char), q y = false →
      (xs ++ y :: ys).dropWhile q = xs.dropWhile q ++ y :: ys := by
  intro xs y ys hy
  induction xs with
  | nil => simp [hy]
  | cons a as ih =>
    rw [List.cons_append]
    cases hqa : q a
    · rw [List.dropWhile_cons_of_neg (by simp [hqa]),
        List.dropWhile_cons_of_neg (by simp [hqa]), List.cons_append]
    · rw [List.dropWhile_cons_of_pos hqa, List.dropWhile_cons_of_pos hqa, ih]

theorem takeWhile_all_append (q : Char → Bool) :
    ∀ (ds s : List Char), (∀ c ∈ ds, q c = true) → headNotDigit s = true →
      q = Char.isDigit → (ds ++ s).takeWhile q = ds := by
  intro ds s hds hs hq
  induction ds with
  | nil =>
    cases s with
    | nil => rfl
    | cons c cs =>
      subst hq
      simp only [headNotDigit, Bool.not_eq_true'] at hs
      rw [List.nil_append, List.takeWhile_cons_of_neg (by simp [hs])]
  | cons a as ih =>
    have ha : q a = true := hds a (by simp)
    rw [List.cons_append, List.takeWhile_cons_of_pos ha,
      ih (fun c hc => hds c (by simp [hc]))]

theorem dropWhile_all_append (q : Char → Bool) :
    ∀ (ds s : List Char), (∀ c ∈ ds, q c = true) → headNotDigit s = true →
      q = Char.isDigit → (ds ++ s).dropWhile q = s := by
  intro ds s hds hs hq
  induction ds with
  | nil =>
    cases s with
    | nil => rfl
    | cons c cs =>
      subst hq
      simp only [headNotDigit, Bool.not_eq_true'] at hs
      rw [List.nil_append, List.dropWhile_cons_of_neg (by simp [hs])]
  | cons a as ih =>
    have ha : q a = true := hds a (by simp)
    rw [List.cons_append, List.dropWhile_cons_of_pos ha,
      ih (fun c hc => hds c (by simp [hc]))]

/-- The rewriter turns each maximal hash-digits occurrence into the link,
leaving the surroundings to be rewritten independently. Stated with fuel on
the prefix so the induction is structural. -/
theorem rewriteRefs_insert_aux :
    ∀ (n : Nat) (p ds s : List Char), p.length ≤ n → ds ≠ [] →
      (∀ c ∈ ds, c.isDigit = true) → headNotDigit s = true →
      rewriteRefs (p ++ '#' :: (ds ++ s)) = rewriteRefs p ++ refLink ds ++ rewriteRefs s := by
  intro n
  induction n with
  | zero =>
    intro p ds s hp hds hdig hs
    have : p = [] := List.length_eq_zero.mp (Nat.le_zero.mp hp)
    subst this
    simp only [List.nil_append, rewriteRefs_nil]
    rw [rewriteRefs_cons]
    have htw : (ds ++ s).takeWhile Char.isDigit = ds :=
      takeWhile_all_append Char.isDigit ds s hdig hs rfl
    have hdw : (ds ++ s).dropWhile Char.isDigit = s :=
      dropWhile_all_append Char.isDigit ds s hdig hs rfl
    rw [if_pos ⟨rfl, by rw [htw]; exact hds⟩, htw, hdw]
  | succ m ih =>
    intro p ds s hp hds hdig hs
    cases p with
    | nil =>
      simp only [List.nil_append, rewriteRefs_nil]
      rw [rewriteRefs_cons]
      have htw : (ds ++ s).takeWhile Char.isDigit = ds :=
        takeWhile_all_append Char.isDigit ds s hdig hs rfl
      have hdw : (ds ++ s).dropWhile Char.isDigit = s :=
        dropWhile_all_append Char.isDigit ds s hdig hs rfl
      rw [if_pos ⟨rfl, by rw [htw]; exact hds⟩, htw, hdw]
    | cons c rest =>
      have hrest : rest.length ≤ m := by simp only [List.length_cons] at hp; omega
      have hhash : Char.isDigit '#' = false := by decide
      have htw2 : (rest ++ '#' :: (ds ++ s)).takeWhile Char.isDigit =
          rest.takeWhile Char.isDigit :=
        takeWhile_append_of_stop Char.isDigit rest '#' (ds ++ s) hhash
      have hdw2 : (rest ++ '#' :: (ds ++ s)).dropWhile Char.isDigit =
          rest.dropWhile Char.isDigit ++ '#' :: (ds ++ s) :=
        dropWhile_append_of_stop Char.isDigit rest '#' (ds ++ s) hhash
      show rewriteRefs (c :: (rest ++ '#' :: (ds ++ s))) = _
      rw [rewriteRefs_cons, rewriteRefs_cons c rest]
      by_cases h : c = '#' ∧ rest.takeWhile Char.isDigit ≠ []
      · rw [if_pos (by rw [htw2]; exact h), if_pos h, htw2, hdw2]
        have hdwlen : (rest.dropWhile Char.isDigit).length ≤ m :=
          le_trans (length_dropWhile_le Char.isDigit rest) hrest
        rw [ih (rest.dropWhile Char.isDigit) ds s hdwlen hds hdig hs]
        simp [List.append_assoc]
      · rw [if_neg (by rw [htw2]; exact h), if_neg h]
        rw [ih rest ds s hrest hds hdig hs]
        simp

/-- A body with no hash mark is returned unchanged by the rewriter. -/
theorem rewriteRefs_no_hash : ∀ (t : List Char), '#' ∉ t → rewriteRefs t = t := by
  intro t
  induction t with
  | nil => intro _; rfl
  | cons c rest ih =>
    intro hmem
    have hc : c ≠ '#' := fun h => hmem (h ▸ List.mem_cons_self c rest)
    rw [rewriteRefs_cons, if_neg (fun h => hc h.1)]
    rw [ih (fun h => hmem (List.mem_cons_of_mem c h))]

/- ### Small-step lemmas about the tree operations -/
theorem lookup_append_of_some (a b : FS) (p : FPath) (e : Entry)
    (h : lookup a p = some e) : lookup (a ++ b) p = some e := by
  induction a with
  | nil => simp [lookup] at h
  | cons kv rest ih =>
    simp only [lookup, List.cons_append] at h ⊢
    by_cases hk : kv.1 = p
    · rwa [if_pos hk] at h ⊢
    · rw [if_neg hk] at h ⊢
      exact ih h

theorem lookup_append_of_none (a b : FS) (p : FPath)
    (h : lookup a p = none) : lookup (a ++ b) p = lookup b p := by
  induction a with
  | nil => rfl
  | cons kv rest ih =>
    simp only [lookup, List.cons_append] at h ⊢
    by_cases hk : kv.1 = p
    · rw [if_pos hk] at h; exact absurd h (by simp)
    · rw [if_neg hk] at h ⊢
      exact ih h

theorem lookup_removeP (fs : FS) (p q : FPath) :
    lookup (removeP fs p) q = if q = p then none else lookup fs q := by
  induction fs with
  | nil => simp only [removeP, lookup]; split <;> rfl
  | cons kv rest ih =>
    simp only [removeP]
    by_cases hk : kv.1 = p
    · rw [if_pos hk, ih]
      by_cases hq : q = p
      · rw [if_pos hq, if_pos hq]
      · rw [if_neg hq, if_neg hq]
        simp only [lookup]
        rw [if_neg (fun h => hq ((hk ▸ h : (p : FPath) = q)).symm)]
    · rw [if_neg hk]
      simp only [lookup]
      by_cases hkq : kv.1 = q
      · have hqp : q ≠ p := fun h => hk (hkq.trans h)
        rw [if_pos hkq, if_neg hqp, if_pos hkq]
      · rw [if_neg hkq, ih]
        by_cases hq : q = p
        · rw [if_pos hq, if_pos hq]
        · rw [if_neg hq, if_neg hq, if_neg hkq]

theorem lookup_writeFile (fs : FS) (p : FPath) (e : Entry) (q : FPath) :
    lookup (writeFile fs p e) q = if q = p then some e else lookup fs q := by
  unfold writeFile
  by_cases hq : q = p
  · subst hq
    rw [lookup_append_of_none _ _ _ (by rw [lookup_removeP]; simp), if_pos rfl]
    simp [lookup]
  · rw [if_neg hq]
    have h1 : lookup (removeP fs p) q = lookup fs q := by
      rw [lookup_removeP, if_neg hq]
    cases h : lookup fs q with
    | some e' => rw [lookup_append_of_some _ _ _ _ (h1.trans h)]
    | none =>
      rw [lookup_append_of_none _ _ _ (h1.trans h)]
      simp only [lookup]
      rw [if_neg (fun hh => hq hh.symm)]

theorem ensureDir_of_some (fs : FS) (p : FPath) (e : Entry)
    (h : lookup fs p = some e) : ensureDir fs p = fs := by
  unfold ensureDir
  rw [h]

theorem lookup_ensureDir_other (fs : FS) (p q : FPath) (hq : q ≠ p) :
    lookup (ensureDir fs p) q = lookup fs q := by
  unfold ensureDir
  cases h : lookup fs p with
  | some e => rfl
  | none =>
    cases hfq : lookup fs q with
    | some e' => rw [lookup_append_of_some _ _ _ _ hfq]
    | none =>
      rw [lookup_append_of_none _ _ _ hfq]
      simp only [lookup]
      rw [if_neg (fun hh => hq hh.symm)]

theorem lookup_ensureDir_self (fs : FS) (p : FPath) :
    lookup (ensureDir fs p) p = some ((lookup fs p).getD Entry.dir) := by
  unfold ensureDir
  cases h : lookup fs p with
  | some e => rw [h]; rfl
  | none =>
    rw [lookup_append_of_none _ _ _ h]
    simp [lookup]

theorem lookup_ensureDirs_other (fs : FS) (ps : List FPath) (q : FPath)
    (hq : ∀ p ∈ ps, q ≠ p) : lookup (ensureDirs fs ps) q = lookup fs q := by
  induction ps generalizing fs with
  | nil => rfl
  | cons p rest ih =>
    show lookup (ensureDirs (ensureDir fs p) rest) q = _
    rw [ih (ensureDir fs p) (fun r hr => hq r (by simp [hr])),
      lookup_ensureDir_other fs p q (hq p (by simp))]

theorem lookup_ensureDirs_of_some (fs : FS) (ps : List FPath) (q : FPath) (e : Entry)
    (h : lookup fs q = some e) : lookup (ensureDirs fs ps) q = some e := by
  induction ps generalizing fs with
  | nil => exact h
  | cons p rest ih =>
    show lookup (ensureDirs (ensureDir fs p) rest) q = _
    refine ih (ensureDir fs p) ?_
    by_cases hq : q = p
    · subst hq
      rw [lookup_ensureDir_self, h]
      rfl
    · rw [lookup_ensureDir_other fs p q hq]
      exact h

theorem lookup_ensureDirs_mem : ∀ (ps : List FPath) (fs : FS) (p : FPath),
    p ∈ ps → lookup (ensureDirs fs ps) p ≠ none := by
  intro ps
  induction ps with
  | nil => intro fs p h; simp at h
  | cons r rest ih =>
    intro fs p h
    show lookup (ensureDirs (ensureDir fs r) rest) p ≠ none
    rcases List.mem_cons.mp h with hpr | hmem
    · subst hpr
      cases hafter : lookup (ensureDir fs p) p with
      | some e =>
        rw [lookup_ensureDirs_of_some _ _ _ _ hafter]
        simp
      | none =>
        rw [lookup_ensureDir_self] at hafter
        exact absurd hafter (by simp)
    · exact ih (ensureDir fs r) p hmem

theorem lookup_ensureDirs_nonfile (fs : FS) (ps : List FPath) (q : FPath) (e : Entry)
    (he : e ≠ Entry.dir) :
    lookup (ensureDirs fs ps) q = some e ↔ lookup fs q = some e := by
  induction ps generalizing fs with
  | nil => exact Iff.rfl
  | cons p rest ih =>
    show lookup (ensureDirs (ensureDir fs p) rest) q = some e ↔ _
    rw [ih (ensureDir fs p)]
    by_cases hq : q = p
    · subst hq
      rw [lookup_ensureDir_self]
      cases h : lookup fs q with
      | some e' => simp
      | none =>
        simp only [Option.getD]
        constructor
        · intro hsome
          exact ((he (Option.some.inj hsome).symm).elim : Entry.dir = e → False) (Option.some.inj hsome) |>.elim
        · intro hnone
          exact Option.noConfusion hnone
    · rw [lookup_ensureDir_other fs p q hq]

theorem symlinkTo_of_some (fs : FS) (p : FPath) (t : Bool × List String) (e : Entry)
    (h : lookup fs p = some e) : symlinkTo fs p t = fs := by
  unfold symlinkTo
  rw [h]

theorem lookup_symlinkTo_other (fs : FS) (p q : FPath) (t : Bool × List String)
    (hq : q ≠ p) : lookup (symlinkTo fs p t) q = lookup fs q := by
  unfold symlinkTo
  cases h : lookup fs p with
  | some e => rfl
  | none =>
    cases hfq : lookup fs q with
    | some e' => rw [lookup_append_of_some _ _ _ _ hfq]
    | none =>
      rw [lookup_append_of_none _ _ _ hfq]
      simp only [lookup]
      rw [if_neg (fun hh => hq hh.symm)]

theorem lookup_symlinkTo_self_none (fs : FS) (p : FPath) (t : Bool × List String)
    (h : lookup fs p = none) : lookup (symlinkTo fs p t) p = some (Entry.symlink t) := by
  unfold symlinkTo
  rw [h, lookup_append_of_none _ _ _ h]
  simp [lookup]

/- ### Keys and no-duplicates -/
theorem lookup_none_iff_not_mem_keys (fs : FS) (p : FPath) :
    lookup fs p = none ↔ p ∉ fs.map Prod.fst := by
  induction fs with
  | nil => simp [lookup]
  | cons kv rest ih =>
    simp only [List.map_cons, List.mem_cons]
    constructor
    · intro h hor
      simp only [lookup] at h
      by_cases hk : kv.1 = p
      · rw [if_pos hk] at h
        exact Option.noConfusion h
      · rw [if_neg hk] at h
        rcases hor with h1 | h2
        · exact hk h1.symm
        · exact (ih.mp h) h2
    · intro hnor
      simp only [lookup]
      rw [if_neg (fun hk => hnor (Or.inl hk.symm))]
      exact ih.mpr (fun h2 => hnor (Or.inr h2))

theorem lookup_eq_some_of_mem (fs : FS) (p : FPath) (e : Entry)
    (hnd : NodupKeys fs) (h : (p, e) ∈ fs) : lookup fs p = some e := by
  induction fs with
  | nil => simp at h
  | cons kv rest ih =>
    have hnd' := List.nodup_cons.mp hnd
    rcases List.mem_cons.mp h with hkv | hmem
    · subst hkv
      simp [lookup]
    · have hk : kv.1 ≠ p := by
        intro hk
        exact hnd'.1 (hk.symm ▸ List.mem_map.mpr ⟨(p, e), hmem, rfl⟩)
      simp only [lookup, if_neg hk]
      exact ih hnd'.2 hmem

theorem mem_of_lookup_eq_some (fs : FS) (p : FPath) (e : Entry)
    (h : lookup fs p = some e) : (p, e) ∈ fs := by
  induction fs with
  | nil => simp [lookup] at h
  | cons kv rest ih =>
    rcases kv with ⟨k, v⟩
    simp only [lookup] at h
    by_cases hk : k = p
    · rw [if_pos hk] at h
      have hv : v = e := by injection h
      subst hv
      subst hk
      exact List.mem_cons_self _ _
    · rw [if_neg hk] at h
      exact List.mem_cons.mpr (Or.inr (ih h))

theorem removeP_sublist (fs : FS) (p : FPath) : List.Sublist (removeP fs p) fs := by
  induction fs with
  | nil => simp [removeP]
  | cons kv rest ih =>
    simp only [removeP]
    by_cases hk : kv.1 = p
    · rw [if_pos hk]
      exact List.Sublist.cons kv ih
    · rw [if_neg hk]
      exact List.Sublist.cons₂ kv ih

theorem NodupKeys_removeP (fs : FS) (p : FPath) (h : NodupKeys fs) :
    NodupKeys (removeP fs p) :=
  List.Nodup.sublist (List.Sublist.map Prod.fst (removeP_sublist fs p)) h

theorem NodupKeys_writeFile (fs : FS) (p : FPath) (e : Entry) (h : NodupKeys fs) :
    NodupKeys (writeFile fs p e) := by
  unfold writeFile NodupKeys
  rw [List.map_append]
  refine List.Nodup.append (NodupKeys_removeP fs p h) (by simp) ?_
  intro a ha hb
  simp only [List.map_cons, List.map_nil, List.mem_singleton] at hb
  have hn : lookup (removeP fs p) p = none := by rw [lookup_removeP]; simp
  exact (lookup_none_iff_not_mem_keys _ _).mp hn (hb ▸ ha)

theorem NodupKeys_ensureDir (fs : FS) (p : FPath) (h : NodupKeys fs) :
    NodupKeys (ensureDir fs p) := by
  unfold ensureDir
  cases hl : lookup fs p with
  | some e => exact h
  | none =>
    unfold NodupKeys
    rw [List.map_append]
    refine List.Nodup.append h (by simp) ?_
    intro a ha hb
    simp only [List.map_cons, List.map_nil, List.mem_singleton] at hb
    exact (lookup_none_iff_not_mem_keys _ _).mp hl (hb ▸ ha)

theorem NodupKeys_ensureDirs : ∀ (ps : List FPath) (fs : FS), NodupKeys fs →
    NodupKeys (ensureDirs fs ps) := by
  intro ps
  induction ps with
  | nil => intro fs h; exact h
  | cons p rest ih =>
    intro fs h
    exact ih (ensureDir fs p) (NodupKeys_ensureDir fs p h)

theorem NodupKeys_symlinkTo (fs : FS) (p : FPath) (t : Bool × List String)
    (h : NodupKeys fs) : NodupKeys (symlinkTo fs p t) := by
  unfold symlinkTo
  cases hl : lookup fs p with
  | some e => exact h
  | none =>
    unfold NodupKeys
    rw [List.map_append]
    refine List.Nodup.append h (by simp) ?_
    intro a ha hb
    simp only [List.map_cons, List.map_nil, List.mem_singleton] at hb
    exact (lookup_none_iff_not_mem_keys _ _).mp hl (hb ▸ ha)

/- ### The snapshot index -/
theorem mem_buildIndex (fs : FS) (root : List String) (f : String) (p : FPath) :
    p ∈ buildIndex fs root f ↔
      ∃ e, (p, e) ∈ fs ∧ underDir root p = true ∧ lastName p = some f := by
  unfold buildIndex
  constructor
  · intro h
    rcases List.mem_map.mp h with ⟨kv, hkv, hfst⟩
    rcases List.mem_filter.mp hkv with ⟨hmem, hcond⟩
    rcases kv with ⟨pp, ee⟩
    subst hfst
    simp only [Bool.and_eq_true, beq_iff_eq] at hcond
    exact ⟨ee, hmem, hcond.1, hcond.2⟩
  · rintro ⟨e, hmem, hu, hl⟩
    exact List.mem_map.mpr ⟨(p, e), List.mem_filter.mpr ⟨hmem, by simp [hu, hl]⟩, rfl⟩

theorem nodup_buildIndex (fs : FS) (root : List String) (f : String)
    (h : NodupKeys fs) : (buildIndex fs root f).Nodup :=
  List.Nodup.sublist (List.Sublist.map Prod.fst (List.filter_sublist fs)) h

theorem mem_buildIndex_lookup (fs : FS) (root : List String) (f : String) (p : FPath)
    (hnd : NodupKeys fs) :
    p ∈ buildIndex fs root f ↔
      underDir root p = true ∧ lastName p = some f ∧ lookup fs p ≠ none := by
  rw [mem_buildIndex]
  constructor
  · rintro ⟨e, hmem, hu, hl⟩
    exact ⟨hu, hl, by rw [lookup_eq_some_of_mem fs p e hnd hmem]; simp⟩
  · rintro ⟨hu, hl, hsome⟩
    cases he : lookup fs p with
    | none => exact absurd he hsome
    | some e => exact ⟨e, mem_of_lookup_eq_some fs p e he, hu, hl⟩

/- ### Deletion loop -/
theorem deleteAllFiles_ok : ∀ (ps : List FPath) (fs : FS), ps.Nodup →
    (∀ p ∈ ps, lookup fs p ≠ none) →
    (deleteAllFiles fs ps).2 = none ∧
      ∀ q, lookup (deleteAllFiles fs ps).1 q = if q ∈ ps then none else lookup fs q := by
  intro ps
  induction ps with
  | nil =>
    intro fs _ _
    exact ⟨rfl, fun q => by simp [deleteAllFiles]⟩
  | cons p rest ih =>
    intro fs hnd hall
    have hp : lookup fs p ≠ none := hall p (by simp)
    cases hl : lookup fs p with
    | none => exact absurd hl hp
    | some e =>
      have hstep : deleteAllFiles fs (p :: rest) = deleteAllFiles (removeP fs p) rest := by
        simp [deleteAllFiles, hl]
      rw [hstep]
      have hnd' := List.nodup_cons.mp hnd
      have hall' : ∀ r ∈ rest, lookup (removeP fs p) r ≠ none := by
        intro r hr
        rw [lookup_removeP, if_neg (fun heq : r = p => hnd'.1 (heq ▸ hr))]
        exact hall r (by simp [hr])
      obtain ⟨h2, hlook⟩ := ih (removeP fs p) hnd'.2 hall'
      refine ⟨h2, fun q => ?_⟩
      rw [hlook q, lookup_removeP]
      by_cases hq1 : q ∈ rest
      · simp [hq1]
      · by_cases hq2 : q = p
        · simp [hq1, hq2]
        · simp [hq1, hq2]

theorem deleteAllFiles_err : ∀ (ps : List FPath) (fs : FS) (p : FPath),
    p ∈ ps → lookup fs p = none → (deleteAllFiles fs ps).2 ≠ none := by
  intro ps
  induction ps with
  | nil => intro fs p h; simp at h
  | cons r rest ih =>
    intro fs p hmem hnone
    cases hl : lookup fs r with
    | none => simp [deleteAllFiles, hl]
    | some e =>
      have hstep : deleteAllFiles fs (r :: rest) = deleteAllFiles (removeP fs r) rest := by
        simp [deleteAllFiles, hl]
      rw [hstep]
      rcases List.mem_cons.mp hmem with hpr | hmem'
      · subst hpr
        rw [hl] at hnone
        exact absurd hnone (by simp)
      · refine ih (removeP fs r) p hmem' ?_
        rw [lookup_removeP]
        by_cases hq : p = r
        · simp [hq]
        · simp [hq, hnone]

theorem NodupKeys_deleteAllFiles : ∀ (ps : List FPath) (fs : FS), NodupKeys fs →
    NodupKeys (deleteAllFiles fs ps).1 := by
  intro ps
  induction ps with
  | nil => intro fs h; exact h
  | cons p rest ih =>
    intro fs h
    cases hl : lookup fs p with
    | none => simpa [deleteAllFiles, hl] using h
    | some e =>
      have hstep : deleteAllFiles fs (p :: rest) = deleteAllFiles (removeP fs p) rest := by
        simp [deleteAllFiles, hl]
      rw [hstep]
      exact ih (removeP fs p) (NodupKeys_removeP fs p h)

/- ### The comment loop on a fully consumable page sequence -/
theorem drain_good : ∀ (rest : List (Page CommentData)) (pg : Page CommentData),
    goodPagesB (pg :: rest) = true →
    drain pg rest = Except.ok (((pg :: rest).map Page.items).flatten, rest.length) := by
  intro rest
  induction rest with
  | nil =>
    intro pg h
    simp only [goodPagesB, beq_iff_eq] at h
    simp [drain, h]
  | cons q qs ih =>
    intro pg h
    simp only [goodPagesB, Bool.and_eq_true] at h
    simp only [drain, h.1]
    rw [ih q h.2]
    simp

/- ### Path shape helpers -/
theorem root_append_inj (root a b : List String) (h : root ++ a = root ++ b) : a = b := by
  induction root with
  | nil => exact h
  | cons r rs ih => exact ih (by injection h)

theorem underDir_append (root l : List String) : underDir root (root ++ l) = true := by
  induction root with
  | nil => rfl
  | cons r rs ih => simp [underDir, ih]

theorem lastName_snoc (l : List String) (x : String) : lastName (l ++ [x]) = some x := by
  simp [lastName]

theorem lastName_canonical (opts : OptsM) (i : IssueData) :
    lastName (canonicalPath opts i) = some (fileName i.number) := by
  have : canonicalPath opts i = (opts.root ++ [asciiLower i.state]) ++ [fileName i.number] := by
    simp [canonicalPath]
  rw [this, lastName_snoc]

theorem lastName_link (opts : OptsM) (i : IssueData) :
    lastName (linkPathOf opts i) = some (fileName i.number) := by
  have : linkPathOf opts i =
      (opts.root ++ ["milestones", sanitize i.milestone, asciiLower i.state])
        ++ [fileName i.number] := by
    simp [linkPathOf]
  rw [this, lastName_snoc]

theorem writeMilestone_eq (opts : OptsM) (i : IssueData) (out : FPath) (fs : FS) :
    writeMilestone opts i out fs =
      if msOn opts i = true then
        symlinkTo (ensureDirs fs (mdirList opts (sanitize i.milestone)))
          (linkPathOf opts i) (symlinkTarget opts.rootAbs out)
      else fs := rfl

theorem mem_mdirList (opts : OptsM) (ms : String) (p : FPath) :
    p ∈ mdirList opts ms ↔
      p = opts.root ++ ["milestones"] ∨ p = opts.root ++ ["milestones", ms] ∨
      p = opts.root ++ ["milestones", ms, "open"] ∨
      (opts.allIssues = true ∧ p = opts.root ++ ["milestones", ms, "closed"]) := by
  unfold mdirList
  cases h : opts.allIssues <;> simp [h]

theorem lastName_append_snoc (root l : List String) (x : String) :
    lastName (root ++ (l ++ [x])) = some x := by
  rw [← List.append_assoc]
  exact lastName_snoc _ x

theorem lastName_mdir (opts : OptsM) (ms : String) (p : FPath)
    (h : p ∈ mdirList opts ms) :
    lastName p = some "milestones" ∨ lastName p = some ms ∨
      lastName p = some "open" ∨ lastName p = some "closed" := by
  rcases (mem_mdirList opts ms p).mp h with h1 | h2 | h3 | h4
  · subst h1
    exact Or.inl (lastName_append_snoc opts.root [] "milestones")
  · subst h2
    exact Or.inr (Or.inl (lastName_append_snoc opts.root ["milestones"] ms))
  · subst h3
    exact Or.inr (Or.inr (Or.inl (lastName_append_snoc opts.root ["milestones", ms] "open")))
  · rw [h4.2]
    exact Or.inr (Or.inr (Or.inr (lastName_append_snoc opts.root ["milestones", ms] "closed")))

theorem canonical_ne_link (opts : OptsM) (i : IssueData) :
    canonicalPath opts i ≠ linkPathOf opts i := by
  intro h
  have := root_append_inj _ _ _ h
  simp at this

theorem link_not_mem_mdirList (opts : OptsM) (i : IssueData) (ms : String) :
    linkPathOf opts i ∉ mdirList opts ms := by
  intro h
  rcases (mem_mdirList opts ms _).mp h with h1 | h2 | h3 | h4
  · exact absurd (root_append_inj _ _ _ h1) (by simp)
  · exact absurd (root_append_inj _ _ _ h2) (by simp)
  · exact absurd (root_append_inj _ _ _ h3) (by simp)
  · exact absurd (root_append_inj _ _ _ h4.2) (by simp)

theorem canonical_not_mem_mdirList (opts : OptsM) (i : IssueData) (ms : String)
    (hstate : asciiLower i.state = "open" ∨ asciiLower i.state = "closed") :
    canonicalPath opts i ∉ mdirList opts ms := by
  intro h
  rcases (mem_mdirList opts ms _).mp h with h1 | h2 | h3 | h4
  · exact absurd (root_append_inj _ _ _ h1) (by simp)
  · have heq := root_append_inj _ _ _ h2
    have hs : asciiLower i.state = "milestones" := by
      injection heq
    rcases hstate with h' | h' <;> rw [h'] at hs <;> exact absurd hs (by decide)
  · exact absurd (root_append_inj _ _ _ h3) (by simp)
  · exact absurd (root_append_inj _ _ _ h4.2) (by simp)

theorem lookup_writeMilestone_other (opts : OptsM) (i : IssueData) (out : FPath)
    (fs : FS) (p : FPath) (hlink : msOn opts i = true → p ≠ linkPathOf opts i)
    (hmd : p ∉ mdirsOf opts i) :
    lookup (writeMilestone opts i out fs) p = lookup fs p := by
  rw [writeMilestone_eq]
  by_cases h : msOn opts i = true
  · rw [if_pos h, lookup_symlinkTo_other _ _ _ _ (hlink h)]
    apply lookup_ensureDirs_other
    intro m hm heq
    exact hmd (by rw [mdirsOf, if_pos h]; exact heq ▸ hm)
  · rw [if_neg h]

theorem lookup_writeMilestone_link (opts : OptsM) (i : IssueData) (out : FPath)
    (fs : FS) (hms : msOn opts i = true)
    (hnone : lookup fs (linkPathOf opts i) = none) :
    lookup (writeMilestone opts i out fs) (linkPathOf opts i)
      = some (Entry.symlink (symlinkTarget opts.rootAbs out)) := by
  rw [writeMilestone_eq, if_pos hms]
  have hother : lookup (ensureDirs fs (mdirList opts (sanitize i.milestone)))
      (linkPathOf opts i) = none := by
    rw [lookup_ensureDirs_other]
    · exact hnone
    · intro m hm heq
      exact link_not_mem_mdirList opts i (sanitize i.milestone) (heq ▸ hm)
  exact lookup_symlinkTo_self_none _ _ _ hother

theorem lookup_writeMilestone_mdir (opts : OptsM) (i : IssueData) (out : FPath)
    (fs : FS) (p : FPath) (hp : p ∈ mdirsOf opts i) :
    lookup (writeMilestone opts i out fs) p ≠ none ∧
      ∀ e, lookup fs p = some e → lookup (writeMilestone opts i out fs) p = some e := by
  unfold mdirsOf at hp
  by_cases h : msOn opts i = true
  · rw [if_pos h] at hp
    have hlink : p ≠ linkPathOf opts i := by
      intro heq
      exact link_not_mem_mdirList opts i (sanitize i.milestone) (heq ▸ hp)
    rw [writeMilestone_eq, if_pos h]
    constructor
    · rw [lookup_symlinkTo_other _ _ _ _ hlink]
      exact lookup_ensureDirs_mem _ fs p hp
    · intro e he
      rw [lookup_symlinkTo_other _ _ _ _ hlink]
      exact lookup_ensureDirs_of_some _ _ _ _ he
  · rw [if_neg h] at hp
    simp at hp

theorem NodupKeys_writeMilestone (opts : OptsM) (i : IssueData) (out : FPath)
    (fs : FS) (h : NodupKeys fs) : NodupKeys (writeMilestone opts i out fs) := by
  rw [writeMilestone_eq]
  by_cases hm : msOn opts i = true
  · rw [if_pos hm]
    exact NodupKeys_symlinkTo _ _ _ (NodupKeys_ensureDirs _ fs h)
  · rw [if_neg hm]
    exact h

theorem underDir_mdirsOf (opts : OptsM) (i : IssueData) (p : FPath)
    (hp : p ∈ mdirsOf opts i) : underDir opts.root p = true := by
  unfold mdirsOf at hp
  by_cases h : msOn opts i = true
  · rw [if_pos h] at hp
    rcases (mem_mdirList _ _ _).mp hp with h1 | h2 | h3 | h4
    · rw [h1]; exact underDir_append _ _
    · rw [h2]; exact underDir_append _ _
    · rw [h3]; exact underDir_append _ _
    · rw [h4.2]; exact underDir_append _ _
  · rw [if_neg h] at hp
    simp at hp

theorem underDir_canonical (opts : OptsM) (i : IssueData) :
    underDir opts.root (canonicalPath opts i) = true :=
  underDir_append _ _

theorem underDir_link (opts : OptsM) (i : IssueData) :
    underDir opts.root (linkPathOf opts i) = true :=
  underDir_append _ _

theorem stepIssue_spec (opts : OptsM) (st : St) (i : IssueData)
    (hnd : NodupKeys st.fs) (hic : issueClean i)
    (hidx : idxMatches st opts.root (fileName i.number)) :
    (stepIssue opts st i).2 = none ∧ StepFacts opts st i (stepIssue opts st i).1 := by
  obtain ⟨hgood, hstate, hmsne, hfo, hfc, hfm⟩ := hic
  obtain ⟨hD, hDnd⟩ := hidx
  have hdrain : drain i.comments0 i.commentRest
      = Except.ok (fullComments i, i.commentRest.length) :=
    drain_good i.commentRest i.comments0 hgood
  have hall : ∀ p ∈ st.idx (fileName i.number), lookup st.fs p ≠ none :=
    fun p hp => ((hD p).mp hp).2.2
  obtain ⟨hd2, hdlook⟩ := deleteAllFiles_ok (st.idx (fileName i.number)) st.fs hDnd hall
  rcases hres : deleteAllFiles st.fs (st.idx (fileName i.number)) with ⟨fs1, derr⟩
  rw [hres] at hd2 hdlook
  dsimp only at hd2 hdlook
  subst hd2
  have hout : stepIssue opts st i =
      ({ st with
          fs := writeMilestone opts i (canonicalPath opts i)
            (writeFile fs1
              (canonicalPath opts i) (Entry.file (renderDoc i (fullComments i)))),
          written := st.written ++ [canonicalPath opts i],
          count := st.count + 1,
          cq := st.cq + i.commentRest.length }, none) := by
    simp only [stepIssue, hdrain, hres]
  have hmdln : ∀ q ∈ mdirsOf opts i, lastName q ≠ some (fileName i.number) := by
    intro q hq hlq
    unfold mdirsOf at hq
    by_cases h : msOn opts i = true
    · rw [if_pos h] at hq
      rcases lastName_mdir opts _ q hq with hx | hx | hx | hx <;> rw [hlq] at hx
      · exact hfm (Option.some.inj hx)
      · exact hmsne (Option.some.inj hx).symm
      · exact hfo (Option.some.inj hx)
      · exact hfc (Option.some.inj hx)
    · rw [if_neg h] at hq
      simp at hq
  have hcanmd : canonicalPath opts i ∉ mdirsOf opts i := by
    unfold mdirsOf
    by_cases h : msOn opts i = true
    · rw [if_pos h]
      exact canonical_not_mem_mdirList opts i _ hstate
    · rw [if_neg h]
      simp
  refine ⟨by rw [hout], ?_⟩
  rw [hout]
  refine
    { fsCanon := ?_, fsLink := ?_, fsStale := ?_, fsFrame := ?_, fsMdirs := ?_,
      fsOutside := ?_, fsNodup := ?_, hwritten := rfl, hcount := rfl, hiq := rfl,
      hcq := rfl, hidx := rfl }
  · show lookup (writeMilestone opts i _ _) _ = _
    rw [lookup_writeMilestone_other opts i _ _ _ (fun _ => canonical_ne_link opts i) hcanmd,
      lookup_writeFile, if_pos rfl]
    rfl
  · intro hms
    show lookup (writeMilestone opts i _ _) _ = _
    have hu : underDir opts.root (linkPathOf opts i) = true := underDir_append _ _
    have hlinknone1 :
        lookup fs1
          (linkPathOf opts i) = none := by
      rw [hdlook]
      by_cases hmem : linkPathOf opts i ∈ st.idx (fileName i.number)
      · rw [if_pos hmem]
      · rw [if_neg hmem]
        cases he : lookup st.fs (linkPathOf opts i) with
        | none => rfl
        | some e =>
          exact absurd ((hD _).mpr ⟨hu, lastName_link opts i, by rw [he]; simp⟩) hmem
    have hlinknone2 :
        lookup (writeFile fs1
          (canonicalPath opts i) (Entry.file (renderDoc i (fullComments i))))
          (linkPathOf opts i) = none := by
      rw [lookup_writeFile, if_neg (fun h => canonical_ne_link opts i h.symm)]
      exact hlinknone1
    exact lookup_writeMilestone_link opts i _ _ hms hlinknone2
  · intro p hu hl hnc hnl
    show lookup (writeMilestone opts i _ _) _ = none
    rw [lookup_writeMilestone_other opts i _ _ _ hnl (fun hmem => hmdln p hmem hl),
      lookup_writeFile, if_neg hnc, hdlook]
    by_cases hmem : p ∈ st.idx (fileName i.number)
    · rw [if_pos hmem]
    · rw [if_neg hmem]
      cases he : lookup st.fs p with
      | none => rfl
      | some e =>
        exact absurd ((hD p).mpr ⟨hu, hl, by rw [he]; simp⟩) hmem
  · intro p hln hmd
    show lookup (writeMilestone opts i _ _) _ = lookup st.fs p
    have hnc : p ≠ canonicalPath opts i :=
      fun h => hln ((congrArg lastName h).trans (lastName_canonical opts i))
    have hnl : p ≠ linkPathOf opts i :=
      fun h => hln ((congrArg lastName h).trans (lastName_link opts i))
    have hnmem : p ∉ st.idx (fileName i.number) :=
      fun hmem => hln ((hD p).mp hmem).2.1
    rw [lookup_writeMilestone_other opts i _ _ _ (fun _ => hnl) hmd,
      lookup_writeFile, if_neg hnc, hdlook, if_neg hnmem]
  · intro p hp
    have hln : lastName p ≠ some (fileName i.number) := hmdln p hp
    have hnc : p ≠ canonicalPath opts i :=
      fun h => hln ((congrArg lastName h).trans (lastName_canonical opts i))
    have hnmem : p ∉ st.idx (fileName i.number) :=
      fun hmem => hln ((hD p).mp hmem).2.1
    obtain ⟨hne, hval⟩ := lookup_writeMilestone_mdir opts i (canonicalPath opts i)
      (writeFile fs1
        (canonicalPath opts i) (Entry.file (renderDoc i (fullComments i)))) p hp
    refine ⟨hne, ?_⟩
    intro e he
    refine hval e ?_
    rw [lookup_writeFile, if_neg hnc, hdlook, if_neg hnmem]
    exact he
  · intro p hu
    show lookup (writeMilestone opts i _ _) _ = lookup st.fs p
    have hnc : p ≠ canonicalPath opts i := by
      intro h
      rw [h, underDir_canonical] at hu
      exact Bool.noConfusion hu
    have hnl : p ≠ linkPathOf opts i := by
      intro h
      rw [h, underDir_link] at hu
      exact Bool.noConfusion hu
    have hpmd : p ∉ mdirsOf opts i := by
      intro hmem
      rw [underDir_mdirsOf opts i p hmem] at hu
      exact Bool.noConfusion hu
    have hnmem : p ∉ st.idx (fileName i.number) := by
      intro hmem
      rw [((hD p).mp hmem).1] at hu
      exact Bool.noConfusion hu
    rw [lookup_writeMilestone_other opts i _ _ _ (fun _ => hnl) hpmd,
      lookup_writeFile, if_neg hnc, hdlook, if_neg hnmem]
  · refine NodupKeys_writeMilestone opts i _ _
      (NodupKeys_writeFile _ _ _ ?_)
    have := NodupKeys_deleteAllFiles (st.idx (fileName i.number)) st.fs hnd
    rw [hres] at this
    exact this

/-- The contrapositive fact used everywhere: a path inside an issue's
milestone directories never carries an issue filename as its base name. -/
theorem mem_mdirsOf_lastName_ne (opts : OptsM) (j : IssueData) (p : FPath) (f : String)
    (hfo : f ≠ "open") (hfc : f ≠ "closed") (hfm : f ≠ "milestones")
    (hms : sanitize j.milestone ≠ f) (hp : p ∈ mdirsOf opts j) :
    lastName p ≠ some f := by
  intro hq
  unfold mdirsOf at hp
  by_cases h : msOn opts j = true
  · rw [if_pos h] at hp
    rcases lastName_mdir opts _ p hp with hx | hx | hx | hx <;> rw [hq] at hx
    · exact hfm (Option.some.inj hx)
    · exact hms (Option.some.inj hx).symm
    · exact hfo (Option.some.inj hx)
    · exact hfc (Option.some.inj hx)
  · rw [if_neg h] at hp
    simp at hp

theorem lastName_not_mdirsOf (opts : OptsM) (j : IssueData) (p : FPath) (f : String)
    (hlp : lastName p = some f) (hfo : f ≠ "open") (hfc : f ≠ "closed")
    (hfm : f ≠ "milestones") (hms : sanitize j.milestone ≠ f) :
    p ∉ mdirsOf opts j :=
  fun hp => mem_mdirsOf_lastName_ne opts j p f hfo hfc hfm hms hp hlp

theorem stepIssues_spec : ∀ (issues : List IssueData) (opts : OptsM) (st : St),
    NodupKeys st.fs →
    (∀ i ∈ issues, issueClean i) →
    (∀ i ∈ issues, idxMatches st opts.root (fileName i.number)) →
    (issues.map (fun i => fileName i.number)).Nodup →
    (∀ i ∈ issues, ∀ j ∈ issues, sanitize j.milestone ≠ fileName i.number) →
    (stepIssues opts st issues).2 = none ∧
      BatchFacts opts st issues (stepIssues opts st issues).1 := by
  intro issues
  induction issues with
  | nil =>
    intro opts st hnd hcl hix hfn hms
    refine ⟨rfl, ?_⟩
    exact
      { fsCanon := by intro i hi; simp at hi
        fsLink := by intro i hi; simp at hi
        fsStale := by intro i hi; simp at hi
        fsFrame := by intro p _ _; rfl
        fsMdirs := by intro i hi; simp at hi
        fsOutside := by intro p _; rfl
        fsNodup := hnd
        hwritten := by simp [stepIssues]
        hcount := by simp [stepIssues]
        hiq := rfl
        hcq := by simp [stepIssues]
        hidx := rfl }
  | cons i is ih =>
    intro opts st hnd hcl hix hfn hms
    have hin : i ∈ i :: is := List.mem_cons_self i is
    obtain ⟨h2i, SF⟩ := stepIssue_spec opts st i hnd (hcl i hin) (hix i hin)
    rcases hstep : stepIssue opts st i with ⟨st1, serr⟩
    rw [hstep] at h2i SF
    dsimp only at h2i SF
    subst h2i
    have hred : stepIssues opts st (i :: is) = stepIssues opts st1 is := by
      simp only [stepIssues, hstep]
    obtain ⟨hci_good, hci_state, hci_msne, hci_fo, hci_fc, hci_fm⟩ := hcl i hin
    have hfn' := List.nodup_cons.mp hfn
    have hne_tail : ∀ j ∈ is, fileName j.number ≠ fileName i.number := by
      intro j hj heq
      have hmm : fileName j.number ∈ List.map (fun k => fileName k.number) is :=
        List.mem_map.mpr ⟨j, hj, rfl⟩
      rw [heq] at hmm
      exact hfn'.1 hmm
    -- a path carrying the head's filename is untouched by the tail pass
    have htail_cl : ∀ j ∈ is, issueClean j :=
      fun j hj => hcl j (List.mem_cons_of_mem i hj)
    have htail_ms : ∀ a ∈ is, ∀ b ∈ is, sanitize b.milestone ≠ fileName a.number :=
      fun a ha b hb => hms a (List.mem_cons_of_mem i ha) b (List.mem_cons_of_mem i hb)
    have htail_ix : ∀ j ∈ is, idxMatches st1 opts.root (fileName j.number) := by
      intro j hj
      obtain ⟨hDj, hDjnd⟩ := hix j (List.mem_cons_of_mem i hj)
      obtain ⟨hjo, hjc, hjm⟩ :
          fileName j.number ≠ "open" ∧ fileName j.number ≠ "closed" ∧
            fileName j.number ≠ "milestones" := by
        obtain ⟨_, _, _, a, b, c⟩ := htail_cl j hj
        exact ⟨a, b, c⟩
      constructor
      · intro p
        rw [SF.hidx]
        by_cases hlp : lastName p = some (fileName j.number)
        · have hfr : lookup st1.fs p = lookup st.fs p := by
            refine SF.fsFrame p ?_ ?_
            · rw [hlp]
              intro hcontra
              exact hne_tail j hj (Option.some.inj hcontra)
            · exact lastName_not_mdirsOf opts i p (fileName j.number) hlp hjo hjc hjm
                (hms j (List.mem_cons_of_mem i hj) i hin)
          rw [hDj p, hfr]
        · constructor
          · intro hmem
            exact absurd ((hDj p).mp hmem).2.1 hlp
          · rintro ⟨_, hl, _⟩
            exact absurd hl hlp
      · rw [SF.hidx]
        exact hDjnd
    obtain ⟨t2, BF⟩ := ih opts st1 SF.fsNodup htail_cl htail_ix hfn'.2 htail_ms
    -- the head's filename paths pass through the tail untouched
    have hfrm_i : ∀ p, lastName p = some (fileName i.number) →
        lookup (stepIssues opts st1 is).1.fs p = lookup st1.fs p := by
      intro p hl
      refine BF.fsFrame p ?_ ?_
      · intro j hj hcontra
        rw [hl] at hcontra
        exact hne_tail j hj (Option.some.inj hcontra).symm
      · intro j hj
        exact lastName_not_mdirsOf opts j p (fileName i.number) hl hci_fo hci_fc hci_fm
          (hms i hin j (List.mem_cons_of_mem i hj))
    rw [hred]
    refine ⟨t2, ?_⟩
    refine
      { fsCanon := ?_, fsLink := ?_, fsStale := ?_, fsFrame := ?_, fsMdirs := ?_,
        fsOutside := fun p hu => (BF.fsOutside p hu).trans (SF.fsOutside p hu),
        fsNodup := BF.fsNodup, hwritten := ?_, hcount := ?_, hiq := ?_, hcq := ?_,
        hidx := BF.hidx.trans SF.hidx }
    · intro j hj
      rcases List.mem_cons.mp hj with hji | hjm
      · subst hji
        rw [hfrm_i _ (lastName_canonical opts j)]
        exact SF.fsCanon
      · exact BF.fsCanon j hjm
    · intro j hj hmsj
      rcases List.mem_cons.mp hj with hji | hjm
      · subst hji
        rw [hfrm_i _ (lastName_link opts j)]
        exact SF.fsLink hmsj
      · exact BF.fsLink j hjm hmsj
    · intro j hj p hu hl hnc hnl
      rcases List.mem_cons.mp hj with hji | hjm
      · subst hji
        rw [hfrm_i p hl]
        exact SF.fsStale p hu hl hnc hnl
      · exact BF.fsStale j hjm p hu hl hnc hnl
    · intro p hln hmd
      rw [BF.fsFrame p (fun j hj => hln j (List.mem_cons_of_mem i hj))
          (fun j hj => hmd j (List.mem_cons_of_mem i hj)),
        SF.fsFrame p (hln i hin) (hmd i hin)]
    · intro j hj p hp
      rcases List.mem_cons.mp hj with hji | hjm
      · subst hji
        obtain ⟨hne1, hval1⟩ := SF.fsMdirs p hp
        by_cases hex : ∀ k ∈ is, p ∉ mdirsOf opts k
        · have hfr : lookup (stepIssues opts st1 is).1.fs p = lookup st1.fs p := by
            refine BF.fsFrame p ?_ hex
            intro k hk
            obtain ⟨_, _, _, a, b, c⟩ := htail_cl k hk
            exact mem_mdirsOf_lastName_ne opts j p (fileName k.number) a b c
              (hms k (List.mem_cons_of_mem j hk) j hj) hp
          rw [hfr]
          exact ⟨hne1, hval1⟩
        · push_neg at hex
          obtain ⟨k, hk, hpk⟩ := hex
          obtain ⟨hne2, hval2⟩ := BF.fsMdirs k hk p hpk
          exact ⟨hne2, fun e he => hval2 e (hval1 e he)⟩
      · obtain ⟨hne2, hval2⟩ := BF.fsMdirs j hjm p hp
        refine ⟨hne2, ?_⟩
        intro e he
        refine hval2 e ?_
        by_cases hpi : p ∈ mdirsOf opts i
        · exact (SF.fsMdirs p hpi).2 e he
        · have hfr : lookup st1.fs p = lookup st.fs p := by
            refine SF.fsFrame p ?_ hpi
            exact mem_mdirsOf_lastName_ne opts j p (fileName i.number) hci_fo hci_fc hci_fm
              (hms i hin j hj) hp
          rw [hfr]
          exact he
    · rw [BF.hwritten, SF.hwritten]
      simp
    · rw [BF.hcount, SF.hcount]
      simp only [List.length_cons]
      omega
    · rw [BF.hiq, SF.hiq]
    · rw [BF.hcq, SF.hcq]
      simp only [List.map_cons, List.sum_cons]
      omega

/- ### From the page loop to the flattened issue list -/
theorem issuesOf_nil : issuesOf [] = [] := rfl

theorem issuesOf_cons (pg : Page IssueData) (rest : List (Page IssueData)) :
    issuesOf (pg :: rest) = pg.items ++ issuesOf rest := by
  simp [issuesOf]

theorem stepIssue_iq_irrel (opts : OptsM) (st : St) (i : IssueData) (n : Nat) :
    stepIssue opts { st with iq := n } i =
      ({ (stepIssue opts st i).1 with iq := n }, (stepIssue opts st i).2) := by
  unfold stepIssue
  rcases hd : drain i.comments0 i.commentRest with e | ⟨cs, k⟩
  · rfl
  · dsimp only
    rcases hdel : deleteAllFiles st.fs (st.idx (fileName i.number)) with ⟨fs1, derr⟩
    rcases derr with _ | e <;> rfl

theorem stepIssues_iq_irrel : ∀ (is : List IssueData) (opts : OptsM) (st : St) (n : Nat),
    stepIssues opts { st with iq := n } is =
      ({ (stepIssues opts st is).1 with iq := n }, (stepIssues opts st is).2) := by
  intro is
  induction is with
  | nil => intro opts st n; rfl
  | cons i is' ih =>
    intro opts st n
    simp only [stepIssues]
    rw [stepIssue_iq_irrel]
    rcases hstep : stepIssue opts st i with ⟨st1, serr⟩
    dsimp only
    rcases serr with _ | e
    · exact ih opts st1 n
    · rfl

theorem stepIssues_append_ok (opts : OptsM) : ∀ (a b : List IssueData) (st stA : St),
    stepIssues opts st a = (stA, none) →
    stepIssues opts st (a ++ b) = stepIssues opts stA b := by
  intro a
  induction a with
  | nil =>
    intro b st stA h
    have h1 : st = stA := by
      have : (st, (none : Option GoErr)) = (stA, none) := h
      injection this
    rw [List.nil_append, h1]
  | cons i a' ih =>
    intro b st stA h
    rw [List.cons_append]
    simp only [stepIssues] at h ⊢
    rcases hstep : stepIssue opts st i with ⟨st1, serr⟩
    rw [hstep] at h
    rcases serr with _ | e
    · dsimp only at h ⊢
      exact ih b st1 stA h
    · dsimp only at h
      exact absurd (congrArg Prod.snd h) (by simp)

theorem stepIssues_append_err (opts : OptsM) : ∀ (a b : List IssueData) (st stA : St) (e : GoErr),
    stepIssues opts st a = (stA, some e) →
    stepIssues opts st (a ++ b) = (stA, some e) := by
  intro a
  induction a with
  | nil =>
    intro b st stA e h
    have h' : (st, (none : Option GoErr)) = (stA, some e) := h
    exact absurd (congrArg Prod.snd h') (by simp)
  | cons i a' ih =>
    intro b st stA e h
    rw [List.cons_append]
    simp only [stepIssues] at h ⊢
    rcases hstep : stepIssue opts st i with ⟨st1, serr⟩
    rw [hstep] at h
    rcases serr with _ | e'
    · dsimp only at h ⊢
      exact ih b st1 stA e h
    · dsimp only at h ⊢
      exact h

theorem ensureDirs_of_present : ∀ (ps : List FPath) (fs : FS),
    (∀ p ∈ ps, lookup fs p ≠ none) → ensureDirs fs ps = fs := by
  intro ps
  induction ps with
  | nil => intro fs _; rfl
  | cons p rest ih =>
    intro fs h
    show ensureDirs (ensureDir fs p) rest = fs
    have hp := h p (by simp)
    cases hl : lookup fs p with
    | none => exact absurd hl hp
    | some e =>
      rw [ensureDir_of_some fs p e hl]
      exact ih fs (fun r hr => h r (by simp [hr]))

theorem asciiLower_OPEN : asciiLower "OPEN" = "open" := by decide

theorem asciiLower_CLOSED : asciiLower "CLOSED" = "closed" := by decide

theorem fetchPages_spec : ∀ (pages : List (Page IssueData)) (opts : OptsM) (st : St),
    goodPagesB pages = true →
    (∀ pg ∈ pages, pg.items ≠ []) →
    (stepIssues opts st (issuesOf pages)).2 = none →
    fetchPages opts st pages =
      ({ (stepIssues opts st (issuesOf pages)).1 with iq := st.iq + pages.length }, none) := by
  intro pages
  induction pages with
  | nil =>
    intro opts st hg _ _
    simp [goodPagesB] at hg
  | cons pg rest ih =>
    intro opts st hg hne hsucc
    have hpine : pg.items ≠ [] := hne pg (by simp)
    rcases hA : stepIssues opts st pg.items with ⟨stA, aerr⟩
    have hsplit : stepIssues opts st (issuesOf (pg :: rest))
        = match stepIssues opts st pg.items with
          | (st', none) => stepIssues opts st' (issuesOf rest)
          | (st', some e) => (st', some e) := by
      rw [issuesOf_cons]
      rcases hA2 : stepIssues opts st pg.items with ⟨stB, berr⟩
      rcases berr with _ | e
      · dsimp only
        exact stepIssues_append_ok opts pg.items (issuesOf rest) st stB hA2
      · dsimp only
        exact stepIssues_append_err opts pg.items (issuesOf rest) st stB e hA2
    rw [hA] at hsplit
    rcases aerr with _ | e
    · dsimp only at hsplit
      rw [hsplit] at hsucc
      have hfp : fetchPages opts st (pg :: rest) =
          (if pg.items = [] then ({ st with iq := st.iq + 1 }, some GoErr.noIssues)
           else
             match stepIssues opts { st with iq := st.iq + 1 } pg.items with
             | (st2, some e) => (st2, some e)
             | (st2, none) =>
               if pg.hasNext then fetchPages opts st2 rest else (st2, none)) := rfl
      rw [hfp, if_neg hpine, stepIssues_iq_irrel pg.items opts st (st.iq + 1), hA]
      dsimp only
      cases rest with
      | nil =>
        simp only [goodPagesB, beq_iff_eq] at hg
        rw [hg]
        simp only [Bool.false_eq_true, if_false]
        rw [hsplit]
        rfl
      | cons q qs =>
        simp only [goodPagesB, Bool.and_eq_true] at hg
        rw [if_pos hg.1]
        have hsucc' : (stepIssues opts { stA with iq := st.iq + 1 }
            (issuesOf (q :: qs))).2 = none := by
          rw [stepIssues_iq_irrel]
          exact hsucc
        rw [ih opts { stA with iq := st.iq + 1 } hg.2
          (fun r hr => hne r (by simp [hr])) hsucc']
        rw [stepIssues_iq_irrel, hsplit]
        dsimp only
        have harith : st.iq + 1 + (q :: qs).length = st.iq + (pg :: q :: qs).length := by
          simp only [List.length_cons]
          omega
        rw [harith]
    · dsimp only at hsplit
      rw [hsplit] at hsucc
      exact absurd hsucc (by simp)

theorem lookup_createDirs_root (opts : OptsM) (fs : FS) :
    lookup (createDirs opts fs) opts.root ≠ none := by
  unfold createDirs
  apply lookup_ensureDirs_mem
  cases opts.allIssues <;> simp

theorem run_spec (opts : OptsM) (fs0 : FS) (pages : List (Page IssueData))
    (hwf : WFRun opts fs0 pages) :
    (run opts fs0 pages).2 = none ∧
    (run opts fs0 pages).1.iq = pages.length ∧
    (run opts fs0 pages).1.written = (issuesOf pages).map (canonicalPath opts) ∧
    (run opts fs0 pages).1.count = (issuesOf pages).length ∧
    (run opts fs0 pages).1.cq = ((issuesOf pages).map (fun i => i.commentRest.length)).sum ∧
    (run opts fs0 pages).1.idx = buildIndex (createDirs opts fs0) opts.root ∧
    TreeFacts opts (createDirs opts fs0) (issuesOf pages) (run opts fs0 pages).1.fs := by
  obtain ⟨hg, hne, hcl, hsm, hnd, hdc, hrc⟩ := hwf
  have hstate : ∀ i ∈ issuesOf pages,
      asciiLower i.state = "open" ∨ asciiLower i.state = "closed" := by
    intro i hi
    rcases hsm i hi with h | ⟨h, _⟩
    · left; rw [h]; exact asciiLower_OPEN
    · right; rw [h]; exact asciiLower_CLOSED
  obtain ⟨hclnd, hclfn, hclms, hclgood⟩ := hcl
  have hicl : ∀ i ∈ issuesOf pages, issueClean i := by
    intro i hi
    have hfn3 := hclfn i hi
    simp only [List.mem_cons, List.mem_singleton, not_or] at hfn3
    exact ⟨hclgood i hi, hstate i hi, hclms i hi i hi,
      hfn3.1, hfn3.2.1, by simpa using hfn3.2.2⟩
  have hidxm : ∀ f, idxMatches
      (initSt (createDirs opts fs0) (buildIndex (createDirs opts fs0) opts.root))
      opts.root f := by
    intro f
    exact ⟨fun p => mem_buildIndex_lookup (createDirs opts fs0) opts.root f p hnd,
      nodup_buildIndex _ _ _ hnd⟩
  obtain ⟨hsucc, BF⟩ := stepIssues_spec (issuesOf pages) opts
    (initSt (createDirs opts fs0) (buildIndex (createDirs opts fs0) opts.root))
    hnd hicl (fun i _ => hidxm _) hclnd hclms
  have hread : readExistingIssues (createDirs opts fs0) opts.root
      = (buildIndex (createDirs opts fs0) opts.root, none) := by
    unfold readExistingIssues
    rw [if_neg (lookup_createDirs_root opts fs0)]
  have hrun : run opts fs0 pages = fetchPages opts
      (initSt (createDirs opts fs0) (buildIndex (createDirs opts fs0) opts.root)) pages := by
    simp only [run, fetchIssues, hread]
  rw [hrun, fetchPages_spec pages opts _ hg hne hsucc]
  refine ⟨rfl, by simp [initSt], ?_, ?_, ?_, ?_, ?_⟩
  · show (stepIssues opts _ (issuesOf pages)).1.written = _
    rw [BF.hwritten]
    simp [initSt]
  · show (stepIssues opts _ (issuesOf pages)).1.count = _
    rw [BF.hcount]
    simp [initSt]
  · show (stepIssues opts _ (issuesOf pages)).1.cq = _
    rw [BF.hcq]
    simp [initSt]
  · show (stepIssues opts _ (issuesOf pages)).1.idx = _
    rw [BF.hidx]
    rfl
  · exact
      { tCanon := BF.fsCanon
        tLink := BF.fsLink
        tStale := BF.fsStale
        tFrame := BF.fsFrame
        tMdirs := BF.fsMdirs
        tOutside := BF.fsOutside
        tNodup := BF.fsNodup }

/- ### Claim theorems -/
/-- Claim C1: when the first fetched issue page contains zero records, the
engine returns the distinguished ErrNoIssues outcome: no file or symlink of
the tree changes (createDirs only ensures directories), the downloaded list
is empty, nothing is reported, and the caller's fatal test (err !=
gh.ErrNoIssues) does not fire on it. -/
theorem c1_quiescent_empty_first_page (opts : OptsM) (fs0 : FS) (b : Bool)
    (rest : List (Page IssueData)) :
    (run opts fs0 ({ items := [], hasNext := b } :: rest)).2 = some GoErr.noIssues ∧
    (run opts fs0 ({ items := [], hasNext := b } :: rest)).1.written = [] ∧
    reportedPaths (run opts fs0 ({ items := [], hasNext := b } :: rest)) = [] ∧
    (∀ p e, e ≠ Entry.dir →
      (lookup (run opts fs0 ({ items := [], hasNext := b } :: rest)).1.fs p = some e ↔
        lookup fs0 p = some e)) ∧
    ¬ callerFatal GoErr.noIssues := by
  have hread : readExistingIssues (createDirs opts fs0) opts.root
      = (buildIndex (createDirs opts fs0) opts.root, none) := by
    unfold readExistingIssues
    rw [if_neg (lookup_createDirs_root opts fs0)]
  have hrun : run opts fs0 ({ items := [], hasNext := b } :: rest)
      = ({ initSt (createDirs opts fs0) (buildIndex (createDirs opts fs0) opts.root)
            with iq := 1 }, some GoErr.noIssues) := by
    simp only [run, fetchIssues, hread, fetchPages]
    rw [if_pos trivial]
    simp [initSt]
  rw [hrun]
  refine ⟨rfl, rfl, rfl, ?_, by simp [callerFatal]⟩
  intro p e he
  show lookup (createDirs opts fs0) p = some e ↔ lookup fs0 p = some e
  unfold createDirs
  exact lookup_ensureDirs_nonfile fs0 _ p e he

/-- Claim C2: the renderer rewrites every maximal hash-digits occurrence of
a body into the relative link [#digits](digits.md), leaves text without a
hash mark unchanged, and applies this rewriting to the issue body inside the
header and to every comment body inside its block. -/
theorem c2_cross_reference_rewriting :
    (∀ p ds s : List Char, ds ≠ [] → (∀ c ∈ ds, c.isDigit = true) →
      headNotDigit s = true →
      rewriteRefs (p ++ '#' :: (ds ++ s)) = rewriteRefs p ++ refLink ds ++ rewriteRefs s) ∧
    (∀ ds : List Char,
      refLink ds = '[' :: '#' :: ds ++ ']' :: '(' :: ds ++ ".md".data ++ [')']) ∧
    (∀ t : List Char, '#' ∉ t → rewriteRefs t = t) ∧
    (∀ i : IssueData, ∃ pre post, headerOf i = pre ++ rewriteRefs i.body ++ post) ∧
    (∀ c : CommentData, ∃ pre post, commentBlock c = pre ++ rewriteRefs c.body ++ post) := by
  refine ⟨?_, fun ds => rfl, rewriteRefs_no_hash, ?_, ?_⟩
  · intro p ds s h1 h2 h3
    exact rewriteRefs_insert_aux p.length p ds s le_rfl h1 h2 h3
  · intro i
    exact ⟨i.title ++ "\n---\n\nCreated by ".data ++ i.author ++ " on ".data ++ i.createdAt
      ++ ":\n\n".data, "\n\n---\n".data, by simp [headerOf]⟩
  · intro c
    exact ⟨'\n' :: (c.author ++ " commented on ".data ++ c.createdAt ++ ":\n\n".data),
      "\n\n---\n".data, by simp [commentBlock]⟩

/-- Witness for C2 at a concrete body. -/
theorem c2_witness :
    rewriteRefs "see #42 ok".data = "see [#42](42.md) ok".data := by
  have h := c2_cross_reference_rewriting.1 "see ".data "42".data " ok".data
    (by decide) (by decide) (by decide)
  have hp := c2_cross_reference_rewriting.2.2.1 "see ".data (by decide)
  have hs := c2_cross_reference_rewriting.2.2.1 " ok".data (by decide)
  calc rewriteRefs "see #42 ok".data
      = rewriteRefs ("see ".data ++ '#' :: ("42".data ++ " ok".data)) := rfl
    _ = rewriteRefs "see ".data ++ refLink "42".data ++ rewriteRefs " ok".data := h
    _ = "see ".data ++ refLink "42".data ++ " ok".data := by rw [hp, hs]
    _ = "see [#42](42.md) ok".data := by decide

/-- Claim C7 (code bug): when the output root is missing at the time
readExistingIssues runs, filepath.Walk yields a *PathError; the guard
err != os.ErrNotExist compares it against the bare sentinel, never matches,
and FetchIssues returns the wrapped fatal error instead of skipping the
index build. The caller treats it as fatal. -/
theorem c7_missing_root_fatal :
    fetchIssues (OptsM.mk ["missing"] false false false) [] [{ items := [], hasNext := false }]
      = (initSt [] (fun _ => []),
          some (GoErr.wrap "unable to read existing issues" (GoErr.pathWalkError ["missing"]))) ∧
    callerFatal (GoErr.wrap "unable to read existing issues" (GoErr.pathWalkError ["missing"])) := by
  constructor
  · rfl
  · simp [callerFatal]

/-- Claim C3: for every fetched issue the run deletes every path the index
recorded for {number}.md (other than the locations it rewrites), writes the
rendered document at {root}/{lower-cased state}/{number}.md, leaves at most
one file for the identity under a state directory, keeps the state parent
directories present, and a deletion failure aborts the step before any
write. -/
theorem c3_reconcile_delete_then_write (opts : OptsM) (fs0 : FS)
    (pages : List (Page IssueData)) (hwf : WFRun opts fs0 pages) :
    (run opts fs0 pages).2 = none ∧
    (∀ i ∈ issuesOf pages,
      lookup (run opts fs0 pages).1.fs
        (opts.root ++ [asciiLower i.state, fileName i.number])
        = some (Entry.file (docFull i))) ∧
    (∀ i ∈ issuesOf pages,
      ∀ p ∈ buildIndex (createDirs opts fs0) opts.root (fileName i.number),
      p ≠ canonicalPath opts i → (msOn opts i = true → p ≠ linkPathOf opts i) →
      lookup (run opts fs0 pages).1.fs p = none) ∧
    (∀ i ∈ issuesOf pages, ∀ s : String,
      opts.root ++ [s, fileName i.number] ≠ canonicalPath opts i →
      lookup (run opts fs0 pages).1.fs (opts.root ++ [s, fileName i.number]) = none) ∧
    (lookup (run opts fs0 pages).1.fs (opts.root ++ ["open"]) ≠ none ∧
      (opts.allIssues = true →
        lookup (run opts fs0 pages).1.fs (opts.root ++ ["closed"]) ≠ none)) ∧
    (∀ (st : St) (i : IssueData) (p : FPath),
      goodPagesB (commentPages i) = true →
      p ∈ st.idx (fileName i.number) → lookup st.fs p = none →
      (stepIssue opts st i).2 ≠ none) := by
  obtain ⟨h2, _, _, _, _, _, TF⟩ := run_spec opts fs0 pages hwf
  obtain ⟨hg, hne, hcl, hsm, hnd, hdc, hrc⟩ := hwf
  refine ⟨h2, TF.tCanon, ?_, ?_, ?_, ?_⟩
  · intro i hi p hp hnc hnl
    obtain ⟨e, hmem, hu, hl⟩ := (mem_buildIndex _ _ _ p).mp hp
    exact TF.tStale i hi p hu hl hnc hnl
  · intro i hi s hne'
    have hu : underDir opts.root (opts.root ++ [s, fileName i.number]) = true :=
      underDir_append _ _
    have hl : lastName (opts.root ++ [s, fileName i.number])
        = some (fileName i.number) := by
      have : opts.root ++ [s, fileName i.number]
          = (opts.root ++ [s]) ++ [fileName i.number] := by simp
      rw [this, lastName_snoc]
    refine TF.tStale i hi _ hu hl hne' ?_
    intro _ heq
    have := root_append_inj _ _ _ heq
    simp at this
  · constructor
    · have hop : ∀ j ∈ issuesOf pages,
          lastName (opts.root ++ ["open"]) ≠ some (fileName j.number) := by
        intro j hj
        rw [lastName_snoc]
        intro hcontra
        have := hcl.2.1 j hj
        simp at this
        exact this.1 (Option.some.inj hcontra).symm
      have hmd : ∀ j ∈ issuesOf pages, opts.root ++ ["open"] ∉ mdirsOf opts j := by
        intro j hj hmem
        unfold mdirsOf at hmem
        by_cases h : msOn opts j = true
        · rw [if_pos h] at hmem
          rcases (mem_mdirList _ _ _).mp hmem with h1 | h2 | h3 | h4
          · have := root_append_inj _ _ _ h1; simp at this
          · have := root_append_inj _ _ _ h2; simp at this
          · have := root_append_inj _ _ _ h3; simp at this
          · have := root_append_inj _ _ _ h4.2; simp at this
        · rw [if_neg h] at hmem; simp at hmem
      rw [TF.tFrame _ hop hmd]
      unfold createDirs
      apply lookup_ensureDirs_mem
      cases opts.allIssues <;> simp
    · intro hall
      have hop : ∀ j ∈ issuesOf pages,
          lastName (opts.root ++ ["closed"]) ≠ some (fileName j.number) := by
        intro j hj
        rw [lastName_snoc]
        intro hcontra
        have := hcl.2.1 j hj
        simp at this
        exact this.2.1 (Option.some.inj hcontra).symm
      have hmd : ∀ j ∈ issuesOf pages, opts.root ++ ["closed"] ∉ mdirsOf opts j := by
        intro j hj hmem
        unfold mdirsOf at hmem
        by_cases h : msOn opts j = true
        · rw [if_pos h] at hmem
          rcases (mem_mdirList _ _ _).mp hmem with h1 | h2 | h3 | h4
          · have := root_append_inj _ _ _ h1; simp at this
          · have := root_append_inj _ _ _ h2; simp at this
          · have := root_append_inj _ _ _ h3; simp at this
          · have := root_append_inj _ _ _ h4.2; simp at this
        · rw [if_neg h] at hmem; simp at hmem
      rw [TF.tFrame _ hop hmd]
      unfold createDirs
      apply lookup_ensureDirs_mem
      simp [hall]
  · intro st i p hgood hp hnone
    have hdrain : drain i.comments0 i.commentRest
        = Except.ok (fullComments i, i.commentRest.length) :=
      drain_good i.commentRest i.comments0 hgood
    have herr := deleteAllFiles_err (st.idx (fileName i.number)) st.fs p hp hnone
    rcases hdd : deleteAllFiles st.fs (st.idx (fileName i.number)) with ⟨fs1, derr⟩
    rw [hdd] at herr
    rcases derr with _ | e
    · exact absurd rfl herr
    · simp only [stepIssue, hdrain, hdd]
      simp

/-- Witness for C3: on the concrete run the stale closed copy is deleted,
the canonical open copy holds the rendered document, and the run
succeeds. -/
theorem c3_witness :
    (run wOpts wFs0 wPages).2 = none ∧
    lookup (run wOpts wFs0 wPages).1.fs (["out"] ++ ["open", fileName 1])
      = some (Entry.file (docFull wIssue)) ∧
    lookup (run wOpts wFs0 wPages).1.fs (["out"] ++ ["closed", fileName 1]) = none := by
  have h := c3_reconcile_delete_then_write wOpts wFs0 wPages (by decide)
  refine ⟨h.1, ?_, ?_⟩
  · have := h.2.1 wIssue (by decide)
    simpa using this
  · have := h.2.2.2.1 wIssue (by decide) "closed" (by decide)
    simpa using this

/-- Claim C4: under a fully consumable remote response, the run succeeds;
each issue's comment pages are drained in full before its document is
written (the document stored at the canonical path is rendered from the
complete comment set), the issue loop issues exactly one query per page —
stopping with the first page that reports no further page — and the final
count is the total number of issues across the fetched pages. -/
theorem c4_pagination_exhaustion (opts : OptsM) (fs0 : FS)
    (pages : List (Page IssueData)) (hwf : WFRun opts fs0 pages) :
    (run opts fs0 pages).2 = none ∧
    (run opts fs0 pages).1.iq = pages.length ∧
    (run opts fs0 pages).1.count = (pages.map (fun pg => pg.items.length)).sum ∧
    (∀ i ∈ issuesOf pages,
      drain i.comments0 i.commentRest
        = Except.ok (fullComments i, i.commentRest.length) ∧
      lookup (run opts fs0 pages).1.fs (canonicalPath opts i)
        = some (Entry.file (renderDoc i (fullComments i)))) ∧
    (run opts fs0 pages).1.cq
      = ((issuesOf pages).map (fun i => i.commentRest.length)).sum := by
  obtain ⟨h2, hiq, _, hcount, hcq, _, TF⟩ := run_spec opts fs0 pages hwf
  refine ⟨h2, hiq, ?_, ?_, hcq⟩
  · rw [hcount]
    unfold issuesOf
    rw [List.length_flatten, List.map_map]
    rfl
  · intro i hi
    refine ⟨drain_good i.commentRest i.comments0 (hwf.2.2.1.2.2.2 i hi), ?_⟩
    exact TF.tCanon i hi

/-- Witness for C4: three issue pages of sizes 2, 2, 1 and one extra
comment page yield three issue queries, one comment refetch, and a count
of five. -/
theorem c4_witness :
    (run wOpts4 [] wPages4).2 = none ∧
    (run wOpts4 [] wPages4).1.iq = 3 ∧
    (run wOpts4 [] wPages4).1.count = 5 ∧
    (run wOpts4 [] wPages4).1.cq = 1 := by
  have h := c4_pagination_exhaustion wOpts4 [] wPages4 (by decide)
  exact ⟨h.1, h.2.1.trans (by decide), h.2.2.1.trans (by decide),
    h.2.2.2.2.trans (by decide)⟩

/-- Claim C5 (amended): with milestone grouping on and a non-empty title,
the sanitizer turns every path separator into an underscore and changes
nothing else; the step ensures the milestone directories and creates a
symlink at {root}/milestones/{sanitized}/{state}/{number}.md; an existing
entry at that location is tolerated (the tree is returned unchanged beyond
the directories); and the link target is ../../../../{canonical} when the
output path is relative but the absolute canonical path itself when the
output path is absolute. -/
theorem c5_milestone_grouping (opts : OptsM) (i : IssueData) (fs : FS) (out : FPath)
    (hms : msOn opts i = true) :
    (∀ t : String, '/' ∉ (sanitize t).data ∧
      ∀ (k : Nat) (c : Char), t.data[k]? = some c →
        (sanitize t).data[k]? = some (if c = '/' then '_' else c)) ∧
    (lookup fs (linkPathOf opts i) = none →
      lookup (writeMilestone opts i out fs) (linkPathOf opts i)
        = some (Entry.symlink (symlinkTarget opts.rootAbs out))) ∧
    (∀ p ∈ mdirList opts (sanitize i.milestone),
      lookup (writeMilestone opts i out fs) p ≠ none) ∧
    (∀ e, lookup fs (linkPathOf opts i) = some e →
      writeMilestone opts i out fs = ensureDirs fs (mdirList opts (sanitize i.milestone))) ∧
    (opts.rootAbs = false →
      symlinkTarget opts.rootAbs out
        = (false, [".."] ++ [".."] ++ [".."] ++ [".."] ++ out)) ∧
    (opts.rootAbs = true → symlinkTarget opts.rootAbs out = (true, out)) := by
  refine ⟨?_, ?_, ?_, ?_, ?_, ?_⟩
  · intro t
    constructor
    · intro hmem
      have hdata : (sanitize t).data
          = t.data.map (fun c => if c = '/' then '_' else c) := rfl
      rw [hdata] at hmem
      rcases List.mem_map.mp hmem with ⟨c, hc, heq⟩
      by_cases h : c = '/'
      · rw [if_pos h] at heq
        exact absurd heq (by decide)
      · rw [if_neg h] at heq
        exact h heq
    · intro k c hk
      have hdata : (sanitize t).data
          = t.data.map (fun c => if c = '/' then '_' else c) := rfl
      rw [hdata, List.getElem?_map, hk]
      rfl
  · intro hnone
    exact lookup_writeMilestone_link opts i out fs hms hnone
  · intro p hp
    exact (lookup_writeMilestone_mdir opts i out fs p
      (by rw [mdirsOf, if_pos hms]; exact hp)).1
  · intro e he
    rw [writeMilestone_eq, if_pos hms]
    exact symlinkTo_of_some _ _ _ e (lookup_ensureDirs_of_some fs _ _ e he)
  · intro h
    simp [symlinkTarget, h]
  · intro h
    simp [symlinkTarget, h]

/-- Counterexample for C5 as stated: the claim calls the reference target a
relative path, but when the output path is absolute, createSymlink passes
the absolute canonical path through unchanged: the Boolean (filepath.IsAbs
of the target) is true. -/
theorem c5_counterexample :
    symlinkTarget true ["out", "open", "1.md"] = (true, ["out", "open", "1.md"]) ∧
    (symlinkTarget true ["out", "open", "1.md"]).1 = true := by
  constructor <;> rfl

/-- Witness for C5 at the concrete issue: the link for milestone "m/x"
appears at out/milestones/m_x/open/1.md pointing to
../../../../out/open/1.md. -/
theorem c5_witness :
    lookup (writeMilestone wOpts wIssue (canonicalPath wOpts wIssue) (createDirs wOpts []))
      ["out", "milestones", "m_x", "open", "1.md"]
      = some (Entry.symlink (false,
          [".."] ++ [".."] ++ [".."] ++ [".."] ++ ["out", "open", "1.md"])) := by
  have h := (c5_milestone_grouping wOpts wIssue (createDirs wOpts [])
    (canonicalPath wOpts wIssue) (by decide)).2.1 (by decide)
  have e1 : linkPathOf wOpts wIssue = ["out", "milestones", "m_x", "open", "1.md"] := by
    decide
  have e2 : symlinkTarget wOpts.rootAbs (canonicalPath wOpts wIssue)
      = (false, [".."] ++ [".."] ++ [".."] ++ [".."] ++ ["out", "open", "1.md"]) := by
    decide
  rw [← e1, ← e2]
  exact h

theorem fixed_dir_not_mdirsOf (opts : OptsM) (j : IssueData) (l : List String)
    (hl : ∀ ms, l ≠ ["milestones"] ∧ l ≠ ["milestones", ms] ∧
      l ≠ ["milestones", ms, "open"] ∧ l ≠ ["milestones", ms, "closed"]) :
    opts.root ++ l ∉ mdirsOf opts j := by
  intro hmem
  unfold mdirsOf at hmem
  by_cases hm : msOn opts j = true
  · rw [if_pos hm] at hmem
    rcases (mem_mdirList _ _ _).mp hmem with h1 | h2 | h3 | h4
    · exact (hl "").1 (root_append_inj _ _ _ h1)
    · exact (hl (sanitize j.milestone)).2.1 (root_append_inj _ _ _ h2)
    · exact (hl (sanitize j.milestone)).2.2.1 (root_append_inj _ _ _ h3)
    · exact (hl (sanitize j.milestone)).2.2.2 (root_append_inj _ _ _ h4.2)
  · rw [if_neg hm] at hmem
    simp at hmem

/-- Claim C6: with the remote responses and the filter unchanged, a second
run over the tree the first run produced succeeds again and reproduces the
tree byte for byte: every path carries the same entry afterwards (documents
deleted and rewritten with identical content, milestone links recreated
identically), and the reported path list and count repeat. -/
theorem c6_idempotent (opts : OptsM) (fs0 : FS) (pages : List (Page IssueData))
    (hwf : WFRun opts fs0 pages) :
    (run opts fs0 pages).2 = none ∧
    (run opts (run opts fs0 pages).1.fs pages).2 = none ∧
    (∀ p, lookup (run opts (run opts fs0 pages).1.fs pages).1.fs p
      = lookup (run opts fs0 pages).1.fs p) ∧
    (run opts (run opts fs0 pages).1.fs pages).1.written
      = (run opts fs0 pages).1.written ∧
    (run opts (run opts fs0 pages).1.fs pages).1.count
      = (run opts fs0 pages).1.count := by
  obtain ⟨h2, hiq, hw, hc, hcq, hidx0, TF1⟩ := run_spec opts fs0 pages hwf
  obtain ⟨hg, hne, hcl, hsm, hnd, hdc, hrc⟩ := hwf
  have hdirp : ∀ p, (p = opts.root ∨ p = opts.root ++ ["open"] ∨
      (opts.allIssues = true ∧ p = opts.root ++ ["closed"])) →
      lookup (run opts fs0 pages).1.fs p ≠ none := by
    intro p hp
    have hfr : lookup (run opts fs0 pages).1.fs p = lookup (createDirs opts fs0) p := by
      refine TF1.tFrame p ?_ ?_
      · intro j hj
        rcases hp with h | h | ⟨_, h⟩ <;> subst h
        · exact hrc j hj
        · rw [lastName_snoc]
          intro hcontra
          have h3 := hcl.2.1 j hj
          simp at h3
          exact h3.1 (Option.some.inj hcontra).symm
        · rw [lastName_snoc]
          intro hcontra
          have h3 := hcl.2.1 j hj
          simp at h3
          exact h3.2.1 (Option.some.inj hcontra).symm
      · intro j hj
        rcases hp with h | h | ⟨_, h⟩ <;> subst h
        · have h0 := fixed_dir_not_mdirsOf opts j []
            (fun ms => ⟨by simp, by simp, by simp, by simp⟩)
          rw [List.append_nil] at h0
          exact h0
        · exact fixed_dir_not_mdirsOf opts j ["open"]
            (fun ms => ⟨by simp, by simp, by simp, by simp⟩)
        · exact fixed_dir_not_mdirsOf opts j ["closed"]
            (fun ms => ⟨by simp, by simp, by simp, by simp⟩)
    rw [hfr]
    unfold createDirs
    apply lookup_ensureDirs_mem
    rcases hp with h | h | ⟨ha, h⟩ <;> subst h
    · cases opts.allIssues <;> simp
    · cases opts.allIssues <;> simp
    · simp [ha]
  have hA : createDirs opts (run opts fs0 pages).1.fs = (run opts fs0 pages).1.fs := by
    unfold createDirs
    apply ensureDirs_of_present
    intro p hp
    apply hdirp
    cases h : opts.allIssues
    · rw [h] at hp
      simp at hp
      tauto
    · rw [h] at hp
      simp at hp
      rcases hp with h1 | h1 | h1
      · exact Or.inl h1
      · exact Or.inr (Or.inl h1)
      · exact Or.inr (Or.inr ⟨rfl, h1⟩)
  have hwf2 : WFRun opts (run opts fs0 pages).1.fs pages := by
    refine ⟨hg, hne, hcl, hsm, ?_, ?_, hrc⟩
    · rw [hA]
      exact TF1.tNodup
    · rw [hA]
      intro kv hkv hdir hu j hj hln
      have hlk : lookup (run opts fs0 pages).1.fs kv.1 = some kv.2 :=
        lookup_eq_some_of_mem _ _ _ TF1.tNodup hkv
      by_cases hcan : kv.1 = canonicalPath opts j
      · rw [hcan] at hlk
        have hx := Option.some.inj (hlk.symm.trans (TF1.tCanon j hj))
        rw [hdir] at hx
        exact Entry.noConfusion hx
      · by_cases hlnk : msOn opts j = true ∧ kv.1 = linkPathOf opts j
        · rw [hlnk.2] at hlk
          have hx := Option.some.inj (hlk.symm.trans (TF1.tLink j hj hlnk.1))
          rw [hdir] at hx
          exact Entry.noConfusion hx
        · have hnl : msOn opts j = true → kv.1 ≠ linkPathOf opts j :=
            fun hm hq => hlnk ⟨hm, hq⟩
          have hx := TF1.tStale j hj kv.1 hu hln hcan hnl
          rw [hx] at hlk
          exact Option.noConfusion hlk
  obtain ⟨h2', hiq', hw', hc', hcq', hidx', TF2⟩ :=
    run_spec opts (run opts fs0 pages).1.fs pages hwf2
  rw [hA] at TF2
  refine ⟨h2, h2', ?_, hw'.trans hw.symm, hc'.trans hc.symm⟩
  intro p
  by_cases hu : underDir opts.root p = true
  · by_cases h1 : ∃ i, i ∈ issuesOf pages ∧ lastName p = some (fileName i.number)
    · obtain ⟨i, hi, hl⟩ := h1
      by_cases hc2 : p = canonicalPath opts i
      · rw [hc2, TF2.tCanon i hi, TF1.tCanon i hi]
      · by_cases hlk : msOn opts i = true ∧ p = linkPathOf opts i
        · rw [hlk.2, TF2.tLink i hi hlk.1, TF1.tLink i hi hlk.1]
        · have hnl : msOn opts i = true → p ≠ linkPathOf opts i :=
            fun hm hq => hlk ⟨hm, hq⟩
          rw [TF2.tStale i hi p hu hl hc2 hnl, TF1.tStale i hi p hu hl hc2 hnl]
    · push_neg at h1
      by_cases h2m : ∀ i ∈ issuesOf pages, p ∉ mdirsOf opts i
      · exact TF2.tFrame p (fun i hi => h1 i hi) h2m
      · push_neg at h2m
        obtain ⟨i, hi, hp⟩ := h2m
        obtain ⟨hne1, hval1⟩ := TF1.tMdirs i hi p hp
        cases he : lookup (run opts fs0 pages).1.fs p with
        | none => exact absurd he hne1
        | some e =>
          rw [(TF2.tMdirs i hi p hp).2 e he]
  · have huf : underDir opts.root p = false := by
      revert hu
      cases underDir opts.root p <;> simp
    exact TF2.tOutside p huf

/-- Witness for C6 at the concrete run: the second run succeeds and agrees
with the first at the canonical path, and reports the same paths. -/
theorem c6_witness :
    (run wOpts wFs0 wPages).2 = none ∧
    (run wOpts (run wOpts wFs0 wPages).1.fs wPages).2 = none ∧
    lookup (run wOpts (run wOpts wFs0 wPages).1.fs wPages).1.fs ["out", "open", "1.md"]
      = lookup (run wOpts wFs0 wPages).1.fs ["out", "open", "1.md"] ∧
    (run wOpts (run wOpts wFs0 wPages).1.fs wPages).1.written
      = (run wOpts wFs0 wPages).1.written := by
  have h := c6_idempotent wOpts wFs0 wPages (by decide)
  exact ⟨h.1, h.2.1, h.2.2.1 ["out", "open", "1.md"], h.2.2.2.1⟩

/- ### Index invariance, and the mid-run empty page -/
theorem stepIssue_idx (opts : OptsM) (st : St) (i : IssueData) :
    ((stepIssue opts st i).1).idx = st.idx := by
  unfold stepIssue
  rcases hd : drain i.comments0 i.commentRest with e | ⟨cs, k⟩
  · rfl
  · dsimp only
    rcases hdel : deleteAllFiles st.fs (st.idx (fileName i.number)) with ⟨fs1, derr⟩
    rcases derr with _ | e <;> rfl

theorem stepIssues_idx : ∀ (issues : List IssueData) (opts : OptsM) (st : St),
    ((stepIssues opts st issues).1).idx = st.idx := by
  intro issues
  induction issues with
  | nil => intro opts st; rfl
  | cons i is ih =>
    intro opts st
    have h1 := stepIssue_idx opts st i
    rcases hstep : stepIssue opts st i with ⟨st1, serr⟩
    rw [hstep] at h1
    dsimp only at h1
    simp only [stepIssues, hstep]
    rcases serr with _ | e
    · dsimp only
      rw [ih opts st1, h1]
    · exact h1

theorem fetchPages_idx : ∀ (pages : List (Page IssueData)) (opts : OptsM) (st : St),
    ((fetchPages opts st pages).1).idx = st.idx := by
  intro pages
  induction pages with
  | nil => intro opts st; rfl
  | cons pg rest ih =>
    intro opts st
    simp only [fetchPages]
    by_cases hpi : pg.items = []
    · rw [if_pos hpi]
    · rw [if_neg hpi]
      have h1 := stepIssues_idx pg.items opts { st with iq := st.iq + 1 }
      rcases hstep : stepIssues opts { st with iq := st.iq + 1 } pg.items with ⟨st2, serr⟩
      rw [hstep] at h1
      dsimp only at h1
      rcases serr with _ | e
      · dsimp only
        by_cases hn : pg.hasNext = true
        · rw [if_pos hn, ih opts st2, h1]
        · rw [if_neg hn]
          exact h1
      · exact h1

/-- Counterexample for C8 as stated: after the step has deleted the stale
file for identity 1 from the tree, the index still carries the full entry
for 1.md — the code never removes entries from the map. -/
theorem c8_counterexample :
    lookup ((stepIssue wOpts
        { fs := [(["out", "closed", "1.md"], Entry.file ['x']), (["out"], Entry.dir)],
          idx := buildIndex
            [(["out", "closed", "1.md"], Entry.file ['x']), (["out"], Entry.dir)] ["out"],
          written := [], count := 0, iq := 0, cq := 0 }
        (wIssueN 1)).1).fs ["out", "closed", "1.md"] = none ∧
    ((stepIssue wOpts
        { fs := [(["out", "closed", "1.md"], Entry.file ['x']), (["out"], Entry.dir)],
          idx := buildIndex
            [(["out", "closed", "1.md"], Entry.file ['x']), (["out"], Entry.dir)] ["out"],
          written := [], count := 0, iq := 0, cq := 0 }
        (wIssueN 1)).1).idx (fileName 1) = [["out", "closed", "1.md"]] := by
  constructor
  · decide
  · decide

/-- Claim C8 (amended): the snapshot index is built once per run
(FetchIssues hands readExistingIssues' map to the loop) and is read-only
for the rest of the run: no step ever changes it — in particular no entry
is removed when the stale files for an identity are deleted. -/
theorem c8_index_built_once_readonly :
    (∀ (opts : OptsM) (st : St) (i : IssueData),
      ((stepIssue opts st i).1).idx = st.idx) ∧
    (∀ (opts : OptsM) (st : St) (issues : List IssueData),
      ((stepIssues opts st issues).1).idx = st.idx) ∧
    (∀ (opts : OptsM) (st : St) (pages : List (Page IssueData)),
      ((fetchPages opts st pages).1).idx = st.idx) ∧
    (∀ (opts : OptsM) (fs : FS) (pages : List (Page IssueData)),
      lookup fs opts.root ≠ none →
      ((fetchIssues opts fs pages).1).idx = buildIndex fs opts.root) := by
  refine ⟨stepIssue_idx, fun opts st issues => stepIssues_idx issues opts st,
    fun opts st pages => fetchPages_idx pages opts st, ?_⟩
  intro opts fs pages hroot
  have hread : readExistingIssues fs opts.root = (buildIndex fs opts.root, none) := by
    unfold readExistingIssues
    rw [if_neg hroot]
  simp only [fetchIssues, hread]
  exact fetchPages_idx pages opts (initSt fs (buildIndex fs opts.root))

/-- Witness for C8's amended form at a concrete tree. -/
theorem c8_witness :
    ((fetchIssues wOpts (createDirs wOpts wFs0)
        [{ items := [], hasNext := false }]).1).idx
      = buildIndex (createDirs wOpts wFs0) wOpts.root :=
  c8_index_built_once_readonly.2.2.2 wOpts (createDirs wOpts wFs0)
    [{ items := [], hasNext := false }] (by decide)

theorem fetchPages_empty_later (opts : OptsM) (st : St) (pg : Page IssueData) (b : Bool)
    (rest : List (Page IssueData)) (hnonempty : pg.items ≠ []) (hmore : pg.hasNext = true)
    (stA : St) (hA : stepIssues opts { st with iq := st.iq + 1 } pg.items = (stA, none)) :
    fetchPages opts st (pg :: { items := [], hasNext := b } :: rest)
      = ({ stA with iq := stA.iq + 1 }, some GoErr.noIssues) := by
  have h1 : fetchPages opts st (pg :: { items := [], hasNext := b } :: rest)
      = (if pg.items = [] then ({ st with iq := st.iq + 1 }, some GoErr.noIssues)
         else
           match stepIssues opts { st with iq := st.iq + 1 } pg.items with
           | (st2, some e) => (st2, some e)
           | (st2, none) =>
             if pg.hasNext = true then
               fetchPages opts st2 ({ items := [], hasNext := b } :: rest)
             else (st2, none)) := rfl
  rw [h1, if_neg hnonempty, hA]
  dsimp only
  rw [if_pos hmore]
  rfl

/-- Claim C9: the zero-records check is applied to every fetched page. If a
later page arrives empty while the previous page reported has-more, the run
returns the same distinguished ErrNoIssues even though the earlier pages'
files are already on disk; the written list is recorded in the state but
nothing is reported. -/
theorem c9_empty_later_page (opts : OptsM) (fs0 : FS) (pg : Page IssueData) (b : Bool)
    (rest : List (Page IssueData))
    (hnonempty : pg.items ≠ []) (hmore : pg.hasNext = true)
    (hclean : cleanIssues pg.items) (hsm : statesMatch opts pg.items)
    (hnd : NodupKeys (createDirs opts fs0)) :
    (run opts fs0 (pg :: { items := [], hasNext := b } :: rest)).2
      = some GoErr.noIssues ∧
    (∀ i ∈ pg.items,
      lookup (run opts fs0 (pg :: { items := [], hasNext := b } :: rest)).1.fs
        (canonicalPath opts i) = some (Entry.file (docFull i))) ∧
    (run opts fs0 (pg :: { items := [], hasNext := b } :: rest)).1.written
      = pg.items.map (canonicalPath opts) ∧
    reportedPaths (run opts fs0 (pg :: { items := [], hasNext := b } :: rest)) = [] := by
  obtain ⟨hclnd, hclfn, hclms, hclgood⟩ := hclean
  have hstate : ∀ i ∈ pg.items,
      asciiLower i.state = "open" ∨ asciiLower i.state = "closed" := by
    intro i hi
    rcases hsm i hi with h | ⟨h, _⟩
    · left; rw [h]; exact asciiLower_OPEN
    · right; rw [h]; exact asciiLower_CLOSED
  have hicl : ∀ i ∈ pg.items, issueClean i := by
    intro i hi
    have hfn3 := hclfn i hi
    simp only [List.mem_cons, List.mem_singleton, not_or] at hfn3
    exact ⟨hclgood i hi, hstate i hi, hclms i hi i hi,
      hfn3.1, hfn3.2.1, by simpa using hfn3.2.2⟩
  have hidxm : ∀ f, idxMatches
      { initSt (createDirs opts fs0) (buildIndex (createDirs opts fs0) opts.root) with
        iq := (initSt (createDirs opts fs0)
          (buildIndex (createDirs opts fs0) opts.root)).iq + 1 } opts.root f := by
    intro f
    exact ⟨fun p => mem_buildIndex_lookup (createDirs opts fs0) opts.root f p hnd,
      nodup_buildIndex _ _ _ hnd⟩
  obtain ⟨hsucc, BF⟩ := stepIssues_spec pg.items opts
    { initSt (createDirs opts fs0) (buildIndex (createDirs opts fs0) opts.root) with
      iq := (initSt (createDirs opts fs0)
        (buildIndex (createDirs opts fs0) opts.root)).iq + 1 }
    hnd hicl (fun i _ => hidxm _) hclnd hclms
  rcases hA : stepIssues opts
      { initSt (createDirs opts fs0) (buildIndex (createDirs opts fs0) opts.root) with
        iq := (initSt (createDirs opts fs0)
          (buildIndex (createDirs opts fs0) opts.root)).iq + 1 } pg.items with ⟨stA, aerr⟩
  rw [hA] at hsucc BF
  dsimp only at hsucc BF
  subst hsucc
  have hread : readExistingIssues (createDirs opts fs0) opts.root
      = (buildIndex (createDirs opts fs0) opts.root, none) := by
    unfold readExistingIssues
    rw [if_neg (lookup_createDirs_root opts fs0)]
  have hrun : run opts fs0 (pg :: { items := [], hasNext := b } :: rest)
      = ({ stA with iq := stA.iq + 1 }, some GoErr.noIssues) := by
    simp only [run, fetchIssues, hread]
    exact fetchPages_empty_later opts
      (initSt (createDirs opts fs0) (buildIndex (createDirs opts fs0) opts.root))
      pg b rest hnonempty hmore stA hA
  rw [hrun]
  refine ⟨rfl, ?_, ?_, rfl⟩
  · intro i hi
    exact BF.fsCanon i hi
  · show stA.written = pg.items.map (canonicalPath opts)
    rw [BF.hwritten]
    rfl

/-- Witness for C9: a non-empty first page with has-more followed by an
empty page leaves issue 1's document on disk, returns ErrNoIssues, and
reports nothing. -/
theorem c9_witness :
    (run wOpts4 [] [{ items := [wIssueN 1], hasNext := true },
        { items := [], hasNext := false }]).2 = some GoErr.noIssues ∧
    lookup (run wOpts4 [] [{ items := [wIssueN 1], hasNext := true },
        { items := [], hasNext := false }]).1.fs (canonicalPath wOpts4 (wIssueN 1))
      = some (Entry.file (docFull (wIssueN 1))) ∧
    reportedPaths (run wOpts4 [] [{ items := [wIssueN 1], hasNext := true },
        { items := [], hasNext := false }]) = [] := by
  have h := c9_empty_later_page wOpts4 [] { items := [wIssueN 1], hasNext := true } false []
    (by decide) (by decide) (by decide) (by decide) (by decide)
  exact ⟨h.1, h.2.1 (wIssueN 1) (by decide), h.2.2.2⟩

/-- Claim C10: a since string the parser rejects never fails configuration:
Since falls back to the Unix epoch, every option application succeeds, and
the epoch filter admits every issue, so the run re-fetches everything
rather than rejecting the configuration. -/
theorem c10_since_fallback (parse : String → Option Int) (s : String) (o : SinceOptions)
    (hbad : parse s = none) :
    sinceApply parse s o = Except.ok { o with since := sinceEpoch } ∧
    sinceEpoch = 0 ∧
    (∀ t : Nat, sinceMatches sinceEpoch t = true) ∧
    (∀ (s' : String) (o' : SinceOptions), ∃ r, sinceApply parse s' o' = Except.ok r) := by
  refine ⟨?_, rfl, ?_, ?_⟩
  · unfold sinceApply
    rw [hbad]
  · intro t
    simp only [sinceMatches, sinceEpoch, decide_eq_true_eq]
    exact Int.ofNat_nonneg t
  · intro s' o'
    unfold sinceApply
    cases parse s' <;> exact ⟨_, rfl⟩

/-- Witness for C10 at the test input: the string the repository's own
option test uses ("asdas") falls back to the epoch, and the epoch admits a
sample timestamp. -/
theorem c10_witness :
    sinceApply (fun _ => none) "asdas" ⟨42⟩ = Except.ok ⟨0⟩ ∧
    sinceMatches 0 5 = true := by
  have h := c10_since_fallback (fun _ => none) "asdas" ⟨42⟩ rfl
  exact ⟨h.1, h.2.2.1 5⟩

/-- Witness for C1: an empty first page on the concrete tree returns
ErrNoIssues, reports nothing, and leaves the stale file untouched. -/
theorem c1_witness :
    (run wOpts wFs0 [{ items := [], hasNext := true }]).2 = some GoErr.noIssues ∧
    reportedPaths (run wOpts wFs0 [{ items := [], hasNext := true }]) = [] ∧
    lookup (run wOpts wFs0 [{ items := [], hasNext := true }]).1.fs
      ["out", "closed", "1.md"] = some (Entry.file []) := by
  have h := c1_quiescent_empty_first_page wOpts wFs0 true []
  exact ⟨h.1, h.2.2.1,
    (h.2.2.2.1 ["out", "closed", "1.md"] (Entry.file []) (by decide)).mpr (by decide)⟩
